import Mathlib

/-!
Verification of the segment-based masking kernel in
`modules/fastspeech/bbc_mask.py` (DiffSinger).

The kernel operates on integer alignment matrices (`mel2ph`, shape `[B, L]`,
entries `>= 0`).  Two strategies are embedded:

* `fast_bbc_mask` (Strategy A): per-sample boundary scan, per-segment loop;
* `fast_fast_bbc_mask` (Strategy B): dense batched computation via cumulative
  boundary counts (`compute_segment_info_parallel`, `apply_masks_parallel`).

Rows are `List ℤ`, matrices `List (List ℤ)`.  Random draws
(`torch.rand`) are modelled as abstract rational-valued streams; the
comparison `rand < mask_prob` is kept literal.  `mask_length` and
`min_segment_length` are `ℤ` (the source never validates them, so
non-positive values are representable), `mask_prob` is `ℚ`.
-/

namespace BBCMask

/-- Value shift of one entry: `torch.where(mel2ph > 0, mel2ph + 1, mel2ph)`.
Positive entries are incremented, zeros (padding) stay. -/
def shiftVal (v : ℤ) : ℤ :=
  if 0 < v then v + 1 else v

/-- Value shift of one row. -/
def shiftRow (r : List ℤ) : List ℤ :=
  r.map shiftVal

/-- Value shift of the whole matrix. -/
def shiftMat (m : List (List ℤ)) : List (List ℤ) :=
  m.map shiftRow

/-- `F.pad(masked_mel2ph, [1, 1], value=-1)`: the row with a `-1` sentinel on
both ends. -/
def padded (q : List ℤ) : List ℤ :=
  -1 :: (q ++ [-1])

/-- `diff_mask[i] = padded[i+1] != padded[i]`, for `i` in `[0, L]`. -/
def diffAt (q : List ℤ) (i : ℕ) : Bool :=
  (padded q).getD (i + 1) 0 != (padded q).getD i 0

/-- `boundaries = torch.where(diff_mask)[0]`: the sorted positions where
adjacent padded values differ. -/
def boundaries (q : List ℤ) : List ℕ :=
  (List.range (q.length + 1)).filter (fun i => diffAt q i)

/-- Strategy A segment table of a (shifted) row: consecutive boundary pairs
give `start = boundaries[j]`, `length = boundaries[j+1] - boundaries[j]`,
`value = seq[start]`. -/
def segTriples (q : List ℤ) : List (ℕ × ℕ × ℤ) :=
  ((boundaries q).zip (boundaries q).tail).map
    (fun p => (p.1, p.2 - p.1, q.getD p.1 0))

/-- `valid_mask = (values != 0) & (lengths >= min_segment_length)`. -/
def validTriple (msl : ℤ) (t : ℕ × ℕ × ℤ) : Bool :=
  (t.2.2 != 0) && (msl ≤ (t.2.1 : ℤ))

/-- `valid_indices = torch.where(valid_mask)[0]`. -/
def validIndices (q : List ℤ) (msl : ℤ) : List ℕ :=
  (List.range (segTriples q).length).filter
    (fun j => validTriple msl ((segTriples q).getD j (0, 0, 0)))

/-- `valid_indices[torch.rand(len(valid_indices)) < mask_prob]`: keep the
entries whose positional draw beats `mask_prob`.  `k` is the position in the
draw stream. -/
def selectIdx (p : ℚ) (draws : ℕ → ℚ) : ℕ → List ℕ → List ℕ
  | _, [] => []
  | k, j :: tl => if draws k < p then j :: selectIdx p draws (k + 1) tl
                  else selectIdx p draws (k + 1) tl

/-- The segment indices selected by Strategy A for one row. -/
def selectedA (q : List ℤ) (msl : ℤ) (p : ℚ) (draws : ℕ → ℚ) : List ℕ :=
  selectIdx p draws 0 (validIndices q msl)

/-- `result[batch_idx, mask_start:end] = 1`: set the (clipped) index range
`[lo, hi)` of the row to the marker. -/
def writeWindow (row : List ℤ) (lo hi : ℤ) : List ℤ :=
  row.mapIdx (fun i v => if lo ≤ (i : ℤ) ∧ (i : ℤ) < hi then 1 else v)

/-- `mask_start = max(start, end - mask_length)` of segment `j` (Strategy A's
per-segment loop, with `end = start + length`). -/
def aStart (q : List ℤ) (ml : ℤ) (j : ℕ) : ℤ :=
  max (((segTriples q).getD j (0, 0, 0)).1 : ℤ)
    ((((segTriples q).getD j (0, 0, 0)).1 : ℤ)
      + ((((segTriples q).getD j (0, 0, 0)).2.1 : ℕ) : ℤ) - ml)

/-- `end = start + length` of segment `j` in Strategy A. -/
def aEnd (q : List ℤ) (j : ℕ) : ℤ :=
  (((segTriples q).getD j (0, 0, 0)).1 : ℤ)
    + ((((segTriples q).getD j (0, 0, 0)).2.1 : ℕ) : ℤ)

/-- Does Strategy A's write for segment `j` cover frame `l`? -/
def coversA (q : List ℤ) (ml : ℤ) (j l : ℕ) : Bool :=
  decide (aStart q ml j ≤ (l : ℤ)) && decide ((l : ℤ) < aEnd q j)

/-- One iteration of Strategy A's per-segment loop:
`result[batch_idx, mask_start:end] = 1`. -/
def applySegA (q : List ℤ) (ml : ℤ) (row : List ℤ) (j : ℕ) : List ℤ :=
  writeWindow row (aStart q ml j) (aEnd q j)

/-- Strategy A (`fast_bbc_mask`) on one row: shift, find boundaries, build
segments, filter, select, write trailing windows. -/
def fastRowA (r : List ℤ) (ml msl : ℤ) (p : ℚ) (draws : ℕ → ℚ) : List ℤ :=
  let q := shiftRow r
  (selectedA q msl p draws).foldl (applySegA q ml) q

/-- `fast_bbc_mask`: Strategy A over the batch.  `draws b k` is the `k`-th
random draw issued for sample `b` (one draw per valid segment). -/
def fast_bbc_mask (m : List (List ℤ)) (ml msl : ℤ) (p : ℚ)
    (draws : ℕ → ℕ → ℚ) : List (List ℤ) :=
  (List.range m.length).map (fun b => fastRowA (m.getD b []) ml msl p (draws b))

/-- `segment_ids[l] = cumsum(boundary_flags)[l] - 1`: the id of the segment
frame `l` belongs to (count of boundary positions `≤ l`, minus one). -/
def segIdAt (q : List ℤ) (l : ℕ) : ℕ :=
  ((List.range (l + 1)).countP (fun i => diffAt q i)) - 1

/-- Maximum segment id within one (shifted) row. -/
def rowMax (q : List ℤ) : ℕ :=
  ((List.range q.length).map (segIdAt q)).foldl max 0

/-- `max_segments = int(segment_ids.max().item()) + 1` over the whole batch
of shifted rows. -/
def maxSegments (ms : List (List ℤ)) : ℕ :=
  ((ms.map rowMax).foldl max 0) + 1

/-- The number of real segments of a row (`len(boundaries) - 1`). -/
def realCount (q : List ℤ) : ℕ :=
  (segTriples q).length

/-- `pos_masked = torch.where(segment_mask, pos_idx, seq_len)` at frame `l`
for slot `s`. -/
def posMasked (q : List ℤ) (s l : ℕ) : ℕ :=
  if segIdAt q l = s then l else q.length

/-- `segment_starts = pos_masked.min(dim=2)`: minimum frame index of slot `s`,
saturating to `L` for an empty slot. -/
def segStart (q : List ℤ) (s : ℕ) : ℕ :=
  ((List.range q.length).map (posMasked q s)).foldl min q.length

/-- `segment_lengths = segment_mask.sum(dim=2)`: frame count of slot `s`. -/
def segLen (q : List ℤ) (s : ℕ) : ℕ :=
  (List.range q.length).countP (fun l => segIdAt q l = s)

/-- `segment_values = torch.where(pos_masked == segment_starts, masked, 0).sum`:
sum of the shifted values at frames whose `pos_masked` equals the slot start. -/
def segVal (q : List ℤ) (s : ℕ) : ℤ :=
  (((List.range q.length).filter (fun l => posMasked q s l = segStart q s)).map
    (fun l => q.getD l 0)).sum

/-- `valid_segments = (segment_values != 0) & (segment_lengths >= msl)`. -/
def validSlot (q : List ℤ) (msl : ℤ) (s : ℕ) : Bool :=
  (segVal q s != 0) && (msl ≤ (segLen q s : ℤ))

/-- `mask_decisions = valid_segments & (random_vals < mask_prob)`; `draws s`
is the `[B, S]`-shaped draw for slot `s` of the row. -/
def decisionB (q : List ℤ) (msl : ℤ) (p : ℚ) (draws : ℕ → ℚ) (s : ℕ) : Bool :=
  validSlot q msl s && decide (draws s < p)

/-- `mask_starts = torch.clamp(segment_ends - mask_length, min=segment_starts)`
for slot `s`. -/
def maskStartB (q : List ℤ) (ml : ℤ) (s : ℕ) : ℤ :=
  max (segStart q s : ℤ) ((segStart q s : ℤ) + (segLen q s : ℤ) - ml)

/-- `apply_masks_parallel` on one (shifted) row, given the slot count `S`:
frame `l` becomes `1` iff some decided slot's clipped window covers it. -/
def ffRowApply (q : List ℤ) (S : ℕ) (ml msl : ℤ) (p : ℚ)
    (draws : ℕ → ℚ) : List ℤ :=
  q.mapIdx (fun l v =>
    if (List.range S).any (fun s =>
        decisionB q msl p draws s &&
        decide (maskStartB q ml s ≤ (l : ℤ)) &&
        decide ((l : ℤ) < (segStart q s : ℤ) + (segLen q s : ℤ)))
    then 1 else v)

/-- `fast_fast_bbc_mask`: Strategy B over the batch.  `draws b s` is the
`[B, S]` random tensor entry for sample `b`, slot `s`. -/
def fast_fast_bbc_mask (m : List (List ℤ)) (ml msl : ℤ) (p : ℚ)
    (draws : ℕ → ℕ → ℚ) : List (List ℤ) :=
  let ms := m.map shiftRow
  let S := maxSegments ms
  (List.range ms.length).map
    (fun b => ffRowApply (ms.getD b []) S ml msl p (draws b))

/-! ### Basic lemmas: value shift, sentinel padding, boundary structure -/

theorem getD_of_lt (l : List ℤ) (n : ℕ) (h : n < l.length) : l.getD n 0 = l[n] := by
  simp [List.getD_eq_getElem?_getD, List.getElem?_eq_getElem h]

theorem shiftVal_eq_zero (v : ℤ) : shiftVal v = 0 ↔ v = 0 := by
  unfold shiftVal
  split <;> omega

theorem shiftVal_nonneg (v : ℤ) (h : 0 ≤ v) : 0 ≤ shiftVal v := by
  unfold shiftVal
  split <;> omega

theorem shiftVal_ne_one (v : ℤ) (h : 0 ≤ v) : shiftVal v ≠ 1 := by
  unfold shiftVal
  split <;> omega

theorem length_shiftRow (r : List ℤ) : (shiftRow r).length = r.length := by
  simp [shiftRow]

theorem shiftRow_getD (r : List ℤ) (l : ℕ) (h : l < r.length) :
    (shiftRow r).getD l 0 = shiftVal (r.getD l 0) := by
  rw [getD_of_lt _ _ (by simpa [length_shiftRow] using h), getD_of_lt _ _ h]
  simp [shiftRow]

theorem shiftRow_entries_nonneg (r : List ℤ) (hr : ∀ v ∈ r, 0 ≤ v) :
    ∀ v ∈ shiftRow r, 0 ≤ v := by
  intro v hv
  obtain ⟨w, hw, rfl⟩ := List.mem_map.mp hv
  exact shiftVal_nonneg w (hr w hw)

theorem padded_getD_succ (q : List ℤ) (i : ℕ) (h : i < q.length) :
    (padded q).getD (i + 1) 0 = q.getD i 0 := by
  have h2 : i < (q ++ [-1]).length := by simp; omega
  rw [padded, List.getD_cons_succ, getD_of_lt _ _ h2, getD_of_lt _ _ h,
    List.getElem_append_left h]

theorem padded_getD_len (q : List ℤ) :
    (padded q).getD (q.length + 1) 0 = -1 := by
  have h2 : q.length < (q ++ [-1]).length := by simp
  rw [padded, List.getD_cons_succ, getD_of_lt _ _ h2,
    List.getElem_append_right (by omega)]
  simp

theorem padded_getD_zero (q : List ℤ) : (padded q).getD 0 0 = -1 := rfl

theorem boundaries_sorted (q : List ℤ) : (boundaries q).Sorted (· < ·) :=
  List.Pairwise.sublist (List.filter_sublist _) (List.pairwise_lt_range _)

theorem boundaries_nodup (q : List ℤ) : (boundaries q).Nodup :=
  List.Nodup.filter _ (List.nodup_range _)

theorem mem_boundaries (q : List ℤ) (i : ℕ) :
    i ∈ boundaries q ↔ i ≤ q.length ∧ diffAt q i := by
  simp [boundaries, List.mem_filter, Nat.lt_succ_iff]

theorem diffAt_zero (q : List ℤ) (hne : q ≠ []) (hq : ∀ v ∈ q, 0 ≤ v) :
    diffAt q 0 = true := by
  have hlen : 0 < q.length := List.length_pos.mpr hne
  have h0 : (padded q).getD 1 0 = q.getD 0 0 := padded_getD_succ q 0 hlen
  have hv : 0 ≤ q.getD 0 0 := by
    rw [getD_of_lt _ _ hlen]
    exact hq _ (q.getElem_mem hlen)
  simp only [diffAt, h0, padded_getD_zero, bne_iff_ne, ne_eq]
  omega

theorem diffAt_len (q : List ℤ) (hne : q ≠ []) (hq : ∀ v ∈ q, 0 ≤ v) :
    diffAt q q.length = true := by
  have hlen : 0 < q.length := List.length_pos.mpr hne
  obtain ⟨n, hn⟩ : ∃ n, q.length = n + 1 := ⟨q.length - 1, by omega⟩
  have h0 : (padded q).getD (n + 1) 0 = q.getD n 0 := padded_getD_succ q n (by omega)
  have h1 : (padded q).getD (q.length + 1) 0 = -1 := padded_getD_len q
  have hv : 0 ≤ q.getD n 0 := by
    rw [getD_of_lt _ _ (by omega)]
    exact hq _ (q.getElem_mem (by omega))
  rw [hn] at h1 ⊢
  simp only [diffAt, h1, h0, bne_iff_ne, ne_eq]
  omega

theorem zero_mem_boundaries (q : List ℤ) (hne : q ≠ []) (hq : ∀ v ∈ q, 0 ≤ v) :
    0 ∈ boundaries q :=
  (mem_boundaries q 0).mpr ⟨Nat.zero_le _, diffAt_zero q hne hq⟩

theorem len_mem_boundaries (q : List ℤ) (hne : q ≠ []) (hq : ∀ v ∈ q, 0 ≤ v) :
    q.length ∈ boundaries q :=
  (mem_boundaries q _).mpr ⟨Nat.le_refl _, diffAt_len q hne hq⟩

theorem boundaries_le (q : List ℤ) (i : ℕ) (h : i ∈ boundaries q) :
    i ≤ q.length :=
  ((mem_boundaries q i).mp h).1

/-! ### Counting boundaries: `segment_ids` as positions between consecutive
boundaries -/

theorem countP_le_of_sorted (bs : List ℕ) (hs : bs.Pairwise (· < ·)) (j : ℕ)
    (hj : j < bs.length) (l : ℕ) :
    j + 1 ≤ bs.countP (fun x => decide (x ≤ l)) ↔ bs.get ⟨j, hj⟩ ≤ l := by
  induction bs generalizing j with
  | nil => simp at hj
  | cons b tl ih =>
    rw [List.pairwise_cons] at hs
    obtain ⟨hb, htl⟩ := hs
    by_cases hbl : b ≤ l
    · rw [List.countP_cons_of_pos _ _ (by simpa using hbl)]
      cases j with
      | zero =>
        simp only [List.get]
        exact ⟨fun _ => hbl, fun _ => by omega⟩
      | succ j =>
        simp only [List.get]
        rw [← ih htl j (by simpa using hj)]
        omega
    · have h0 : tl.countP (fun x => decide (x ≤ l)) = 0 :=
        List.countP_eq_zero.mpr (fun x hx => by
          have := hb x hx
          simp only [decide_eq_true_eq]
          omega)
      rw [List.countP_cons_of_neg _ _ (by simpa using hbl), h0]
      cases j with
      | zero =>
        simp only [List.get]
        exact ⟨fun h1 => by omega, fun h1 => absurd h1 hbl⟩
      | succ j =>
        simp only [List.get]
        constructor
        · intro h1
          omega
        · intro h1
          have hx := hb _ (tl.get_mem j (by simpa using hj))
          omega

theorem cnt_eq (q : List ℤ) (l : ℕ) (hl : l < q.length) :
    (List.range (l + 1)).countP (fun i => diffAt q i)
      = (boundaries q).countP (fun x => decide (x ≤ l)) := by
  rw [boundaries, List.countP_filter]
  have hsplit : q.length + 1 = (l + 1) + (q.length - l) := by omega
  conv_rhs => rw [hsplit, List.range_add]
  rw [List.countP_append]
  have h2 : ((List.range (q.length - l)).map (l + 1 + ·)).countP
      (fun a => decide (a ≤ l) && diffAt q a) = 0 := by
    apply List.countP_eq_zero.mpr
    intro x hx
    obtain ⟨y, _, rfl⟩ := List.mem_map.mp hx
    simp only [Bool.and_eq_true, decide_eq_true_eq, not_and]
    intro h
    omega
  rw [h2, Nat.add_zero]
  apply List.countP_congr
  intro x hx
  have : x ≤ l := by
    have := List.mem_range.mp hx
    omega
  simp [this]

theorem countP_lt_length_of_exists (bs : List ℕ) (p : ℕ → Bool) (x : ℕ)
    (hx : x ∈ bs) (hpx : p x = false) : bs.countP p < bs.length := by
  induction bs with
  | nil => simp at hx
  | cons b tl ih =>
    rcases List.mem_cons.mp hx with rfl | hx2
    · rw [List.countP_cons_of_neg _ _ (by simp [hpx])]
      have := List.countP_le_length (p := p) (l := tl)
      simp only [List.length_cons]
      omega
    · rw [List.countP_cons]
      have := ih hx2
      simp only [List.length_cons]
      split <;> omega

theorem cnt_pos (q : List ℤ) (hne : q ≠ []) (hq : ∀ v ∈ q, 0 ≤ v) (l : ℕ) :
    0 < (boundaries q).countP (fun x => decide (x ≤ l)) :=
  List.countP_pos_iff.mpr ⟨0, zero_mem_boundaries q hne hq, by simp⟩

theorem cnt_lt (q : List ℤ) (hq : ∀ v ∈ q, 0 ≤ v) (l : ℕ) (hl : l < q.length) :
    (boundaries q).countP (fun x => decide (x ≤ l)) < (boundaries q).length := by
  have hne : q ≠ [] := by
    intro h
    rw [h] at hl
    simp at hl
  exact countP_lt_length_of_exists (boundaries q) _ q.length
    (len_mem_boundaries q hne hq) (by simp; omega)

theorem segIdAt_eq_cnt (q : List ℤ) (l : ℕ) (hl : l < q.length) :
    segIdAt q l = (boundaries q).countP (fun x => decide (x ≤ l)) - 1 := by
  rw [segIdAt, cnt_eq q l hl]

theorem segIdAt_iff (q : List ℤ) (hq : ∀ v ∈ q, 0 ≤ v) (l : ℕ)
    (hl : l < q.length) (j : ℕ) (hj : j + 1 < (boundaries q).length) :
    segIdAt q l = j ↔
      (boundaries q).get ⟨j, by omega⟩ ≤ l ∧
        l < (boundaries q).get ⟨j + 1, hj⟩ := by
  have hne : q ≠ [] := by
    intro h
    rw [h] at hl
    simp at hl
  have hpos := cnt_pos q hne hq l
  have h1 := countP_le_of_sorted (boundaries q) (boundaries_sorted q) j (by omega) l
  have h2 := countP_le_of_sorted (boundaries q) (boundaries_sorted q) (j + 1) hj l
  rw [segIdAt_eq_cnt q l hl]
  constructor
  · intro h
    constructor
    · rw [← h1]
      omega
    · by_contra hc
      push_neg at hc
      have := h2.mpr hc
      omega
  · intro ⟨ha, hb⟩
    have h3 := h1.mpr ha
    have h4 : ¬ (j + 1 + 1 ≤ (boundaries q).countP (fun x => decide (x ≤ l))) := by
      intro hcc
      have := h2.mp hcc
      omega
    omega

theorem segIdAt_succ_lt (q : List ℤ) (hq : ∀ v ∈ q, 0 ≤ v) (l : ℕ)
    (hl : l < q.length) : segIdAt q l + 1 < (boundaries q).length := by
  have hne : q ≠ [] := by
    intro h
    rw [h] at hl
    simp at hl
  have hpos := cnt_pos q hne hq l
  have := cnt_lt q hq l hl
  rw [segIdAt_eq_cnt q l hl]
  omega

/-! ### Generic helpers: fold-min, interval counting, singleton filters -/

theorem foldl_min_spec (xs : List ℕ) : ∀ (seed v : ℕ), (v ∈ xs ∨ seed = v) →
    (∀ x ∈ xs, v ≤ x) → v ≤ seed → xs.foldl min seed = v := by
  induction xs with
  | nil =>
    intro seed v h _ _
    rcases h with h | h
    · simp at h
    · simpa using h
  | cons x tl ih =>
    intro seed v h hle hs
    simp only [List.foldl_cons]
    have hvx : v ≤ x := hle x (List.mem_cons_self x tl)
    refine ih (min seed x) v ?_ (fun y hy => hle y (List.mem_cons_of_mem x hy))
      (le_min hs hvx)
    rcases h with h | rfl
    · rcases List.mem_cons.mp h with rfl | h2
      · exact Or.inr (by omega)
      · exact Or.inl h2
    · exact Or.inr (by
        have := hle x (List.mem_cons_self x tl)
        omega)

theorem countP_range_Ico (n a c : ℕ) (hac : a ≤ c) (hcn : c ≤ n) :
    (List.range n).countP (fun l => decide (a ≤ l) && decide (l < c)) = c - a := by
  have hsplit : n = c + (n - c) := by omega
  conv_lhs => rw [hsplit, List.range_add]
  rw [List.countP_append]
  have h2 : ((List.range (n - c)).map (c + ·)).countP
      (fun l => decide (a ≤ l) && decide (l < c)) = 0 := by
    apply List.countP_eq_zero.mpr
    intro x hx
    obtain ⟨y, _, rfl⟩ := List.mem_map.mp hx
    simp only [Bool.and_eq_true, decide_eq_true_eq, not_and]
    intro _
    omega
  rw [h2, Nat.add_zero]
  have h3 : (List.range c).countP (fun l => decide (a ≤ l) && decide (l < c))
      = (List.range c).countP (fun l => decide (a ≤ l)) := by
    apply List.countP_congr
    intro x hx
    have := List.mem_range.mp hx
    simp only [Bool.and_eq_true, decide_eq_true_eq]
    omega
  rw [h3]
  have hsplit2 : c = a + (c - a) := by omega
  conv_lhs => rw [hsplit2, List.range_add]
  rw [List.countP_append]
  have h4 : (List.range a).countP (fun l => decide (a ≤ l)) = 0 := by
    apply List.countP_eq_zero.mpr
    intro x hx
    have := List.mem_range.mp hx
    simp only [decide_eq_true_eq]
    omega
  have h5 : ((List.range (c - a)).map (a + ·)).countP (fun l => decide (a ≤ l))
      = ((List.range (c - a)).map (a + ·)).length :=
    List.countP_eq_length.mpr (fun x hx => by
      obtain ⟨y, _, rfl⟩ := List.mem_map.mp hx
      simp)
  rw [h4, h5]
  simp

theorem filter_eq_singleton (lst : List ℕ) (hnd : lst.Nodup) (p : ℕ → Bool)
    (a : ℕ) (ha : a ∈ lst) (hp : ∀ x ∈ lst, p x = true ↔ x = a) :
    lst.filter p = [a] := by
  have h1 : ∀ x ∈ lst.filter p, x = a := by
    intro x hx
    obtain ⟨hx1, hx2⟩ := List.mem_filter.mp hx
    exact (hp x hx1).mp hx2
  have h2 : a ∈ lst.filter p := List.mem_filter.mpr ⟨ha, (hp a ha).mpr rfl⟩
  have h3 : (lst.filter p).Nodup := hnd.filter p
  rcases hfe : lst.filter p with _ | ⟨x, tl⟩
  · rw [hfe] at h2
    simp at h2
  · rw [hfe] at h1 h2 h3
    have hxa : x = a := h1 x (List.mem_cons_self x tl)
    cases tl with
    | nil => rw [hxa]
    | cons y tl2 =>
      have hya : y = a := h1 y (by simp)
      rw [List.nodup_cons] at h3
      exact absurd (show x ∈ y :: tl2 by rw [hxa, ← hya]; simp) h3.1

theorem map_getD_range (q : List ℤ) :
    (List.range q.length).map (fun l => q.getD l 0) = q := by
  apply List.ext_getElem
  · simp
  · intro i h1 h2
    have hi : i < q.length := by simpa using h2
    simp only [List.getElem_map, List.getElem_range]
    exact getD_of_lt q i hi

/-! ### Boundary entries as plain numbers -/

/-- The `j`-th boundary position of a row. -/
def bnd (q : List ℤ) (j : ℕ) : ℕ :=
  (boundaries q).getD j 0

theorem bnd_lt_bnd (q : List ℤ) (j : ℕ) (hj : j + 1 < (boundaries q).length) :
    bnd q j < bnd q (j + 1) := by
  have h1 : bnd q j = (boundaries q).get ⟨j, by omega⟩ := by
    unfold bnd
    rw [List.getD_eq_getElem?_getD, List.getElem?_eq_getElem (by omega : j < (boundaries q).length)]
    simp [List.get_eq_getElem]
  have h2 : bnd q (j + 1) = (boundaries q).get ⟨j + 1, hj⟩ := by
    unfold bnd
    rw [List.getD_eq_getElem?_getD, List.getElem?_eq_getElem hj]
    simp [List.get_eq_getElem]
  rw [h1, h2]
  exact (boundaries_sorted q).rel_get_of_lt (by simp)

theorem bnd_mem (q : List ℤ) (j : ℕ) (hj : j < (boundaries q).length) :
    bnd q j ∈ boundaries q := by
  unfold bnd
  rw [List.getD_eq_getElem?_getD, List.getElem?_eq_getElem hj]
  exact List.getElem_mem hj

theorem bnd_le_len (q : List ℤ) (j : ℕ) (hj : j < (boundaries q).length) :
    bnd q j ≤ q.length :=
  boundaries_le q _ (bnd_mem q j hj)

theorem segIdAt_iff_bnd (q : List ℤ) (hq : ∀ v ∈ q, 0 ≤ v) (l : ℕ)
    (hl : l < q.length) (j : ℕ) (hj : j + 1 < (boundaries q).length) :
    segIdAt q l = j ↔ bnd q j ≤ l ∧ l < bnd q (j + 1) := by
  rw [segIdAt_iff q hq l hl j hj]
  have h1 : bnd q j = (boundaries q).get ⟨j, by omega⟩ := by
    unfold bnd
    rw [List.getD_eq_getElem?_getD, List.getElem?_eq_getElem (by omega : j < (boundaries q).length)]
    simp [List.get_eq_getElem]
  have h2 : bnd q (j + 1) = (boundaries q).get ⟨j + 1, hj⟩ := by
    unfold bnd
    rw [List.getD_eq_getElem?_getD, List.getElem?_eq_getElem hj]
    simp [List.get_eq_getElem]
  rw [h1, h2]

/-! ### Structure of the Strategy A segment table -/

theorem segTriples_length (q : List ℤ) :
    (segTriples q).length = (boundaries q).length - 1 := by
  simp only [segTriples, List.length_map, List.length_zip, List.length_tail]
  omega

theorem realCount_eq (q : List ℤ) :
    realCount q = (boundaries q).length - 1 :=
  segTriples_length q

theorem segTriples_getD (q : List ℤ) (j : ℕ)
    (hj : j + 1 < (boundaries q).length) :
    (segTriples q).getD j (0, 0, 0) =
      (bnd q j, bnd q (j + 1) - bnd q j, q.getD (bnd q j) 0) := by
  have hlen : j < (segTriples q).length := by
    rw [segTriples_length]
    omega
  have hz : j < ((boundaries q).zip (boundaries q).tail).length := by
    simp only [List.length_zip, List.length_tail]
    omega
  rw [List.getD_eq_getElem?_getD, List.getElem?_eq_getElem hlen]
  simp only [Option.getD_some, segTriples, List.getElem_map, List.getElem_zip,
    List.getElem_tail]
  have h1 : bnd q j = (boundaries q)[j] := by
    unfold bnd
    rw [List.getD_eq_getElem?_getD,
      List.getElem?_eq_getElem (by omega : j < (boundaries q).length)]
    rfl
  have h2 : bnd q (j + 1) = (boundaries q)[j + 1] := by
    unfold bnd
    rw [List.getD_eq_getElem?_getD, List.getElem?_eq_getElem hj]
    rfl
  rw [h1, h2]

/-! ### Strategy B's dense segment table agrees with Strategy A's -/

theorem segIdAt_bnd (q : List ℤ) (hq : ∀ v ∈ q, 0 ≤ v) (j : ℕ)
    (hj : j + 1 < (boundaries q).length) : segIdAt q (bnd q j) = j := by
  have hlt : bnd q j < bnd q (j + 1) := bnd_lt_bnd q j hj
  have hle : bnd q (j + 1) ≤ q.length := bnd_le_len q (j + 1) hj
  exact (segIdAt_iff_bnd q hq (bnd q j) (by omega) j hj).mpr ⟨Nat.le_refl _, hlt⟩

theorem segStart_real (q : List ℤ) (hq : ∀ v ∈ q, 0 ≤ v) (j : ℕ)
    (hj : j + 1 < (boundaries q).length) : segStart q j = bnd q j := by
  have hlt : bnd q j < bnd q (j + 1) := bnd_lt_bnd q j hj
  have hle : bnd q (j + 1) ≤ q.length := bnd_le_len q (j + 1) hj
  apply foldl_min_spec
  · left
    refine List.mem_map.mpr ⟨bnd q j, List.mem_range.mpr (by omega), ?_⟩
    simp [posMasked, segIdAt_bnd q hq j hj]
  · intro x hx
    obtain ⟨l, hl, rfl⟩ := List.mem_map.mp hx
    have hlL := List.mem_range.mp hl
    unfold posMasked
    split
    · rename_i hseg
      have := (segIdAt_iff_bnd q hq l hlL j hj).mp hseg
      omega
    · omega
  · omega

theorem segLen_real (q : List ℤ) (hq : ∀ v ∈ q, 0 ≤ v) (j : ℕ)
    (hj : j + 1 < (boundaries q).length) :
    segLen q j = bnd q (j + 1) - bnd q j := by
  have hlt : bnd q j < bnd q (j + 1) := bnd_lt_bnd q j hj
  have hle : bnd q (j + 1) ≤ q.length := bnd_le_len q (j + 1) hj
  unfold segLen
  have hcong : (List.range q.length).countP (fun l => decide (segIdAt q l = j))
      = (List.range q.length).countP
        (fun l => decide (bnd q j ≤ l) && decide (l < bnd q (j + 1))) := by
    apply List.countP_congr
    intro l hl
    have hlL := List.mem_range.mp hl
    simp only [decide_eq_true_eq, Bool.and_eq_true]
    exact segIdAt_iff_bnd q hq l hlL j hj
  rw [hcong, countP_range_Ico q.length (bnd q j) (bnd q (j + 1)) (by omega) hle]

theorem segVal_real (q : List ℤ) (hq : ∀ v ∈ q, 0 ≤ v) (j : ℕ)
    (hj : j + 1 < (boundaries q).length) :
    segVal q j = q.getD (bnd q j) 0 := by
  have hlt : bnd q j < bnd q (j + 1) := bnd_lt_bnd q j hj
  have hle : bnd q (j + 1) ≤ q.length := bnd_le_len q (j + 1) hj
  unfold segVal
  have hfil : (List.range q.length).filter
      (fun l => decide (posMasked q j l = segStart q j)) = [bnd q j] := by
    apply filter_eq_singleton _ (List.nodup_range _) _ (bnd q j)
      (List.mem_range.mpr (by omega))
    intro l hl
    have hlL := List.mem_range.mp hl
    rw [segStart_real q hq j hj]
    simp only [decide_eq_true_eq]
    unfold posMasked
    split
    · rename_i hseg
      exact Iff.rfl
    · rename_i hseg
      constructor
      · intro h
        omega
      · intro h
        rw [h] at hseg
        exact absurd (segIdAt_bnd q hq j hj) hseg
  rw [hfil]
  simp

theorem segIdAt_ne_pad (q : List ℤ) (hq : ∀ v ∈ q, 0 ≤ v) (s : ℕ)
    (hs : (boundaries q).length ≤ s + 1) (l : ℕ) (hl : l < q.length) :
    segIdAt q l ≠ s := by
  have := segIdAt_succ_lt q hq l hl
  omega

theorem segLen_pad (q : List ℤ) (hq : ∀ v ∈ q, 0 ≤ v) (s : ℕ)
    (hs : (boundaries q).length ≤ s + 1) : segLen q s = 0 := by
  apply List.countP_eq_zero.mpr
  intro l hl
  have hlL := List.mem_range.mp hl
  simp only [decide_eq_true_eq]
  exact segIdAt_ne_pad q hq s hs l hlL

theorem segStart_pad (q : List ℤ) (hq : ∀ v ∈ q, 0 ≤ v) (s : ℕ)
    (hs : (boundaries q).length ≤ s + 1) : segStart q s = q.length := by
  apply foldl_min_spec
  · right
    rfl
  · intro x hx
    obtain ⟨l, hl, rfl⟩ := List.mem_map.mp hx
    have hlL := List.mem_range.mp hl
    unfold posMasked
    split
    · rename_i hseg
      exact absurd hseg (segIdAt_ne_pad q hq s hs l hlL)
    · omega
  · omega

theorem segVal_pad (q : List ℤ) (hq : ∀ v ∈ q, 0 ≤ v) (s : ℕ)
    (hs : (boundaries q).length ≤ s + 1) : segVal q s = q.sum := by
  unfold segVal
  have hfil : (List.range q.length).filter
      (fun l => decide (posMasked q s l = segStart q s)) = List.range q.length := by
    rw [List.filter_eq_self]
    intro l hl
    have hlL := List.mem_range.mp hl
    rw [segStart_pad q hq s hs]
    simp only [decide_eq_true_eq]
    unfold posMasked
    split
    · rename_i hseg
      exact absurd hseg (segIdAt_ne_pad q hq s hs l hlL)
    · rfl
  rw [hfil, map_getD_range]

/-! ### Values are constant within one segment -/

theorem bnd_eq_get (q : List ℤ) (j : ℕ) (hj : j < (boundaries q).length) :
    bnd q j = (boundaries q).get ⟨j, hj⟩ := by
  unfold bnd
  rw [List.getD_eq_getElem?_getD, List.getElem?_eq_getElem hj]
  rfl

theorem not_mem_boundaries_between (q : List ℤ) (j : ℕ)
    (hj : j + 1 < (boundaries q).length) (l : ℕ) (h1 : bnd q j < l)
    (h2 : l < bnd q (j + 1)) : l ∉ boundaries q := by
  intro hmem
  obtain ⟨i, hi⟩ := List.mem_iff_get.mp hmem
  rcases Nat.lt_trichotomy i.1 j with hc | hc | hc
  · have := (boundaries_sorted q).rel_get_of_lt
      (a := i) (b := ⟨j, by omega⟩) (by simpa using hc)
    rw [hi, ← bnd_eq_get q j (by omega)] at this
    omega
  · have : l = bnd q j := by
      rw [bnd_eq_get q j (by omega), ← hi]
      congr 1
      exact Fin.ext hc
    omega
  · rcases Nat.eq_or_lt_of_le hc with hc2 | hc2
    · have : l = bnd q (j + 1) := by
        rw [bnd_eq_get q (j + 1) hj, ← hi]
        congr 1
        exact Fin.ext hc2.symm
      omega
    · have := (boundaries_sorted q).rel_get_of_lt
        (a := ⟨j + 1, hj⟩) (b := i) (by simpa using hc2)
      rw [hi, ← bnd_eq_get q (j + 1) hj] at this
      omega

theorem const_on_segment (q : List ℤ) (hq : ∀ v ∈ q, 0 ≤ v) (j : ℕ)
    (hj : j + 1 < (boundaries q).length) :
    ∀ l, bnd q j ≤ l → l < bnd q (j + 1) → q.getD l 0 = q.getD (bnd q j) 0 := by
  intro l
  induction l using Nat.strong_induction_on with
  | _ l ih =>
    intro h1 h2
    rcases Nat.eq_or_lt_of_le h1 with heq | hlt
    · rw [← heq]
    · have hlL : l < q.length := lt_of_lt_of_le h2 (bnd_le_len q (j + 1) hj)
      have hnb : l ∉ boundaries q :=
        not_mem_boundaries_between q j hj l hlt h2
      have hdiff : diffAt q l = false := by
        by_contra hd
        simp only [Bool.not_eq_false] at hd
        exact hnb ((mem_boundaries q l).mpr ⟨by omega, hd⟩)
      have heq2 : q.getD l 0 = q.getD (l - 1) 0 := by
        have e1 : (padded q).getD (l + 1) 0 = q.getD l 0 := padded_getD_succ q l hlL
        obtain ⟨m, rfl⟩ : ∃ m, l = m + 1 := ⟨l - 1, by omega⟩
        have e2 : (padded q).getD (m + 1) 0 = q.getD m 0 :=
          padded_getD_succ q m (by omega)
        simp only [diffAt, e1, e2, bne_eq_false_iff_eq] at hdiff
        simpa using hdiff
      rw [heq2]
      exact ih (l - 1) (by omega) (by omega) (by omega)

/-! ### The dense slot count covers every real segment -/

theorem foldl_max_ge (xs : List ℕ) : ∀ (seed x : ℕ), (x ∈ xs ∨ x ≤ seed) →
    x ≤ xs.foldl max seed := by
  induction xs with
  | nil =>
    intro seed x h
    rcases h with h | h
    · simp at h
    · simpa using h
  | cons y tl ih =>
    intro seed x h
    simp only [List.foldl_cons]
    apply ih (max seed y) x
    rcases h with h | h
    · rcases List.mem_cons.mp h with rfl | h2
      · right
        omega
      · left
        exact h2
    · right
      omega

theorem realCount_le_rowMax_succ (q : List ℤ) (hq : ∀ v ∈ q, 0 ≤ v) :
    realCount q ≤ rowMax q + 1 := by
  rw [realCount_eq]
  by_cases hlen : (boundaries q).length < 2
  · omega
  · push_neg at hlen
    have hj : ((boundaries q).length - 2) + 1 < (boundaries q).length := by omega
    have hf := segIdAt_bnd q hq ((boundaries q).length - 2) hj
    have hfL : bnd q ((boundaries q).length - 2) < q.length :=
      lt_of_lt_of_le (bnd_lt_bnd q _ hj) (bnd_le_len q _ hj)
    have hmem : ((boundaries q).length - 2) ∈ (List.range q.length).map (segIdAt q) :=
      List.mem_map.mpr ⟨bnd q ((boundaries q).length - 2),
        List.mem_range.mpr hfL, hf⟩
    have := foldl_max_ge ((List.range q.length).map (segIdAt q)) 0 _ (Or.inl hmem)
    unfold rowMax
    omega

theorem getD_of_lt_gen {α : Type} (l : List α) (n : ℕ) (d : α)
    (h : n < l.length) : l.getD n d = l[n] := by
  simp [List.getD_eq_getElem?_getD, List.getElem?_eq_getElem h]

theorem shiftMat_getD (m : List (List ℤ)) (b : ℕ) :
    (m.map shiftRow).getD b [] = shiftRow (m.getD b []) := by
  by_cases hb : b < m.length
  · rw [getD_of_lt_gen _ b [] (by simpa using hb), getD_of_lt_gen _ b [] hb]
    simp
  · push_neg at hb
    rw [List.getD_eq_getElem?_getD, List.getElem?_eq_none (by simpa using hb),
      List.getD_eq_getElem?_getD, List.getElem?_eq_none (by simpa using hb)]
    rfl

theorem realCount_le_maxSegments (m : List (List ℤ))
    (hq : ∀ row ∈ m, ∀ v ∈ row, 0 ≤ v) (b : ℕ) (hb : b < m.length) :
    realCount (shiftRow (m.getD b [])) ≤ maxSegments (m.map shiftRow) := by
  have hrowmem : m.getD b [] ∈ m := by
    rw [getD_of_lt_gen m b [] hb]
    exact List.getElem_mem hb
  have hq2 : ∀ v ∈ shiftRow (m.getD b []), 0 ≤ v :=
    shiftRow_entries_nonneg _ (hq _ hrowmem)
  have h1 := realCount_le_rowMax_succ (shiftRow (m.getD b [])) hq2
  have hmem2 : rowMax (shiftRow (m.getD b [])) ∈ (m.map shiftRow).map rowMax :=
    List.mem_map.mpr ⟨shiftRow (m.getD b []),
      List.mem_map.mpr ⟨m.getD b [], hrowmem, rfl⟩, rfl⟩
  have h2 := foldl_max_ge ((m.map shiftRow).map rowMax) 0 _ (Or.inl hmem2)
  unfold maxSegments
  omega

/-! ### Pointwise characterization of the mask writers -/

theorem length_writeWindow (row : List ℤ) (lo hi : ℤ) :
    (writeWindow row lo hi).length = row.length := by
  simp [writeWindow]

theorem writeWindow_getD (row : List ℤ) (lo hi : ℤ) (l : ℕ) (hl : l < row.length) :
    (writeWindow row lo hi).getD l 0 =
      if lo ≤ (l : ℤ) ∧ (l : ℤ) < hi then 1 else row.getD l 0 := by
  rw [getD_of_lt _ _ (by simpa [length_writeWindow] using hl),
    getD_of_lt _ _ hl]
  simp [writeWindow]

theorem length_applySegA (q : List ℤ) (ml : ℤ) (row : List ℤ) (j : ℕ) :
    (applySegA q ml row j).length = row.length :=
  length_writeWindow row _ _

theorem applySegA_getD (q : List ℤ) (ml : ℤ) (row : List ℤ) (j l : ℕ)
    (hl : l < row.length) :
    (applySegA q ml row j).getD l 0 =
      if coversA q ml j l then 1 else row.getD l 0 := by
  unfold applySegA
  rw [writeWindow_getD row _ _ l hl]
  unfold coversA
  by_cases h1 : aStart q ml j ≤ (l : ℤ) ∧ (l : ℤ) < aEnd q j
  · rw [if_pos h1, if_pos (by simp [h1.1, h1.2])]
  · rw [if_neg h1, if_neg (by
      simp only [Bool.and_eq_true, decide_eq_true_eq]
      exact fun hc => h1 hc)]

theorem length_foldl_applySegA (q : List ℤ) (ml : ℤ) (sel : List ℕ) :
    ∀ row : List ℤ, (sel.foldl (applySegA q ml) row).length = row.length := by
  induction sel with
  | nil => intro row; rfl
  | cons j tl ih =>
    intro row
    rw [List.foldl_cons, ih, length_applySegA]

theorem foldl_applySegA_getD (q : List ℤ) (ml : ℤ) (sel : List ℕ) :
    ∀ (row : List ℤ) (l : ℕ), l < row.length →
      (sel.foldl (applySegA q ml) row).getD l 0 =
        if sel.any (fun j => coversA q ml j l) then 1 else row.getD l 0 := by
  induction sel with
  | nil =>
    intro row l _
    simp
  | cons j tl ih =>
    intro row l hl
    rw [List.foldl_cons,
      ih (applySegA q ml row j) l (by rwa [length_applySegA]),
      applySegA_getD q ml row j l hl, List.any_cons]
    by_cases h1 : coversA q ml j l <;> by_cases h2 : tl.any (fun i => coversA q ml i l) <;>
      simp [h1, h2]

theorem length_fastRowA (r : List ℤ) (ml msl : ℤ) (p : ℚ) (d : ℕ → ℚ) :
    (fastRowA r ml msl p d).length = r.length := by
  unfold fastRowA
  rw [length_foldl_applySegA, length_shiftRow]

theorem fastRowA_getD (r : List ℤ) (ml msl : ℤ) (p : ℚ) (d : ℕ → ℚ) (l : ℕ)
    (hl : l < r.length) :
    (fastRowA r ml msl p d).getD l 0 =
      if (selectedA (shiftRow r) msl p d).any (fun j => coversA (shiftRow r) ml j l)
      then 1 else (shiftRow r).getD l 0 := by
  unfold fastRowA
  exact foldl_applySegA_getD _ _ _ _ l (by rwa [length_shiftRow])

theorem length_ffRowApply (q : List ℤ) (S : ℕ) (ml msl : ℤ) (p : ℚ) (d : ℕ → ℚ) :
    (ffRowApply q S ml msl p d).length = q.length := by
  simp [ffRowApply]

theorem ffRowApply_getD (q : List ℤ) (S : ℕ) (ml msl : ℤ) (p : ℚ) (d : ℕ → ℚ)
    (l : ℕ) (hl : l < q.length) :
    (ffRowApply q S ml msl p d).getD l 0 =
      if (List.range S).any (fun s =>
          decisionB q msl p d s && decide (maskStartB q ml s ≤ (l : ℤ)) &&
          decide ((l : ℤ) < (segStart q s : ℤ) + (segLen q s : ℤ)))
      then 1 else q.getD l 0 := by
  rw [getD_of_lt _ _ (by simpa [length_ffRowApply] using hl),
    getD_of_lt _ _ hl]
  simp [ffRowApply]

/-! ### Selection lemmas -/

theorem mem_validIndices (q : List ℤ) (msl : ℤ) (j : ℕ) :
    j ∈ validIndices q msl ↔ j < (segTriples q).length ∧
      validTriple msl ((segTriples q).getD j (0, 0, 0)) = true := by
  simp [validIndices, List.mem_filter]

theorem mem_selectIdx (p : ℚ) (draws : ℕ → ℚ) :
    ∀ (lst : List ℕ) (k j : ℕ), j ∈ selectIdx p draws k lst → j ∈ lst := by
  intro lst
  induction lst with
  | nil =>
    intro k j h
    simpa [selectIdx] using h
  | cons x tl ih =>
    intro k j h
    simp only [selectIdx] at h
    split at h
    · rcases List.mem_cons.mp h with rfl | h2
      · exact List.mem_cons_self _ _
      · exact List.mem_cons_of_mem x (ih (k + 1) j h2)
    · exact List.mem_cons_of_mem x (ih (k + 1) j h)

theorem selectIdx_eq_filter (p : ℚ) (drawsA : ℕ → ℚ) (g : ℕ → ℚ) :
    ∀ (lst : List ℕ) (k : ℕ),
      (∀ i (h : i < lst.length), drawsA (k + i) = g (lst.get ⟨i, h⟩)) →
      selectIdx p drawsA k lst = lst.filter (fun j => decide (g j < p)) := by
  intro lst
  induction lst with
  | nil =>
    intro k _
    rfl
  | cons x tl ih =>
    intro k h
    have h0 : drawsA k = g x := by simpa using h 0 (by simp)
    have htl : ∀ i (hi : i < tl.length), drawsA (k + 1 + i) = g (tl.get ⟨i, hi⟩) := by
      intro i hi
      have h2 := h (i + 1) (by simpa using hi)
      have harith : k + (i + 1) = k + 1 + i := by omega
      rw [harith] at h2
      simpa using h2
    simp only [selectIdx, h0]
    rw [ih (k + 1) htl]
    by_cases hg : g x < p
    · simp [List.filter_cons, hg]
    · simp [List.filter_cons, hg]

theorem selectIdx_eq_nil (p : ℚ) (draws : ℕ → ℚ) (hp : ∀ k, ¬ draws k < p) :
    ∀ (lst : List ℕ) (k : ℕ), selectIdx p draws k lst = [] := by
  intro lst
  induction lst with
  | nil =>
    intro k
    rfl
  | cons x tl ih =>
    intro k
    simp only [selectIdx, if_neg (hp k)]
    exact ih (k + 1)

/-! ### Row-level equivalence of the two strategies -/

theorem validSlot_eq_validTriple (q : List ℤ) (hq : ∀ v ∈ q, 0 ≤ v) (msl : ℤ)
    (j : ℕ) (hj : j + 1 < (boundaries q).length) :
    validSlot q msl j = validTriple msl ((segTriples q).getD j (0, 0, 0)) := by
  unfold validSlot validTriple
  rw [segVal_real q hq j hj, segLen_real q hq j hj, segTriples_getD q j hj]

theorem maskStartB_eq_aStart (q : List ℤ) (hq : ∀ v ∈ q, 0 ≤ v) (ml : ℤ)
    (j : ℕ) (hj : j + 1 < (boundaries q).length) :
    maskStartB q ml j = aStart q ml j := by
  unfold maskStartB aStart
  rw [segStart_real q hq j hj, segLen_real q hq j hj, segTriples_getD q j hj]

theorem segEnd_eq_aEnd (q : List ℤ) (hq : ∀ v ∈ q, 0 ≤ v) (j : ℕ)
    (hj : j + 1 < (boundaries q).length) :
    (segStart q j : ℤ) + (segLen q j : ℤ) = aEnd q j := by
  unfold aEnd
  rw [segStart_real q hq j hj, segLen_real q hq j hj, segTriples_getD q j hj]

theorem real_of_lt_realCount (q : List ℤ) (j : ℕ) (hj : j < realCount q) :
    j + 1 < (boundaries q).length := by
  rw [realCount_eq] at hj
  omega

theorem row_equiv (r : List ℤ) (hq : ∀ v ∈ r, 0 ≤ v) (S : ℕ)
    (hS : realCount (shiftRow r) ≤ S) (ml msl : ℤ) (p : ℚ) (dA dB : ℕ → ℚ)
    (hsync : ∀ i (h : i < (validIndices (shiftRow r) msl).length),
      dA i = dB ((validIndices (shiftRow r) msl).get ⟨i, h⟩)) :
    fastRowA r ml msl p dA = ffRowApply (shiftRow r) S ml msl p dB := by
  have hq2 : ∀ v ∈ shiftRow r, 0 ≤ v := shiftRow_entries_nonneg r hq
  have hsel : selectedA (shiftRow r) msl p dA =
      (validIndices (shiftRow r) msl).filter (fun j => decide (dB j < p)) := by
    apply selectIdx_eq_filter p dA dB
    intro i h
    rw [Nat.zero_add]
    exact hsync i h
  apply List.ext_getElem
  · rw [length_fastRowA, length_ffRowApply, length_shiftRow]
  · intro l h1 h2
    have hlr : l < r.length := by rwa [length_fastRowA] at h1
    have hlq : l < (shiftRow r).length := by rwa [length_shiftRow]
    rw [← getD_of_lt _ _ h1, ← getD_of_lt _ _ h2,
      fastRowA_getD r ml msl p dA l hlr,
      ffRowApply_getD (shiftRow r) S ml msl p dB l hlq]
    have hcond : (selectedA (shiftRow r) msl p dA).any
        (fun j => coversA (shiftRow r) ml j l) =
        (List.range S).any (fun s =>
          decisionB (shiftRow r) msl p dB s &&
          decide (maskStartB (shiftRow r) ml s ≤ (l : ℤ)) &&
          decide ((l : ℤ) < (segStart (shiftRow r) s : ℤ)
            + (segLen (shiftRow r) s : ℤ))) := by
      rw [Bool.eq_iff_iff, List.any_eq_true, List.any_eq_true]
      constructor
      · rintro ⟨j, hjmem, hcov⟩
        rw [hsel, List.mem_filter] at hjmem
        obtain ⟨hjv, hjd⟩ := hjmem
        obtain ⟨hjlt, hjt⟩ := (mem_validIndices _ msl j).mp hjv
        have hj : j + 1 < (boundaries (shiftRow r)).length :=
          real_of_lt_realCount _ j hjlt
        refine ⟨j, List.mem_range.mpr (by
          have : j < realCount (shiftRow r) := hjlt
          omega), ?_⟩
        simp only [Bool.and_eq_true]
        refine ⟨⟨?_, ?_⟩, ?_⟩
        · unfold decisionB
          simp only [Bool.and_eq_true]
          exact ⟨by rw [validSlot_eq_validTriple _ hq2 msl j hj]; exact hjt, hjd⟩
        · rw [maskStartB_eq_aStart _ hq2 ml j hj]
          simp only [coversA, Bool.and_eq_true] at hcov
          exact hcov.1
        · rw [segEnd_eq_aEnd _ hq2 j hj]
          simp only [coversA, Bool.and_eq_true] at hcov
          exact hcov.2
      · rintro ⟨s, _, hs⟩
        simp only [Bool.and_eq_true] at hs
        obtain ⟨⟨hdec, hw1⟩, hw2⟩ := hs
        by_cases hcase : s + 1 < (boundaries (shiftRow r)).length
        · refine ⟨s, ?_, ?_⟩
          · rw [hsel, List.mem_filter]
            unfold decisionB at hdec
            simp only [Bool.and_eq_true] at hdec
            refine ⟨(mem_validIndices _ msl s).mpr ⟨?_, ?_⟩, hdec.2⟩
            · rw [segTriples_length]
              omega
            · rw [← validSlot_eq_validTriple _ hq2 msl s hcase]
              exact hdec.1
          · simp only [coversA, Bool.and_eq_true]
            constructor
            · rw [← maskStartB_eq_aStart _ hq2 ml s hcase]
              exact hw1
            · rw [← segEnd_eq_aEnd _ hq2 s hcase]
              exact hw2
        · exfalso
          push_neg at hcase
          unfold maskStartB at hw1
          rw [segStart_pad _ hq2 s hcase, segLen_pad _ hq2 s hcase] at hw1
          rw [segStart_pad _ hq2 s hcase, segLen_pad _ hq2 s hcase] at hw2
          simp only [decide_eq_true_eq] at hw1 hw2
          rw [length_shiftRow] at hlq
          have hcast : (l : ℤ) < ((shiftRow r).length : ℤ) := by
            rw [length_shiftRow]
            exact_mod_cast hlq
          omega
    rw [hcond]

/-! ### Outputs that degenerate to the plain shift -/

theorem shiftMat_eq_map_range (m : List (List ℤ)) :
    shiftMat m = (List.range m.length).map (fun b => shiftRow (m.getD b [])) := by
  apply List.ext_getElem
  · simp [shiftMat]
  · intro i h1 h2
    have hi : i < m.length := by simpa [shiftMat] using h1
    simp only [shiftMat, List.getElem_map, List.getElem_range,
      getD_of_lt_gen m i [] hi]

theorem fastMat_eq_shift_of_rows (m : List (List ℤ)) (ml msl : ℤ) (p : ℚ)
    (draws : ℕ → ℕ → ℚ)
    (h : ∀ b, b < m.length →
      fastRowA (m.getD b []) ml msl p (draws b) = shiftRow (m.getD b [])) :
    fast_bbc_mask m ml msl p draws = shiftMat m := by
  unfold fast_bbc_mask
  rw [shiftMat_eq_map_range]
  apply List.map_congr_left
  intro b hb
  exact h b (List.mem_range.mp hb)

theorem ffMat_eq_shift_of_rows (m : List (List ℤ)) (ml msl : ℤ) (p : ℚ)
    (draws : ℕ → ℕ → ℚ)
    (h : ∀ b, b < m.length →
      ffRowApply (shiftRow (m.getD b [])) (maxSegments (m.map shiftRow)) ml msl p
        (draws b) = shiftRow (m.getD b [])) :
    fast_fast_bbc_mask m ml msl p draws = shiftMat m := by
  unfold fast_fast_bbc_mask
  rw [shiftMat_eq_map_range]
  simp only [List.length_map]
  apply List.map_congr_left
  intro b hb
  rw [shiftMat_getD m b]
  exact h b (List.mem_range.mp hb)

theorem ffRowApply_eq_self_of_any_false (q : List ℤ) (S : ℕ) (ml msl : ℤ)
    (p : ℚ) (d : ℕ → ℚ)
    (h : ∀ s l, l < q.length →
      (decisionB q msl p d s && decide (maskStartB q ml s ≤ (l : ℤ)) &&
        decide ((l : ℤ) < (segStart q s : ℤ) + (segLen q s : ℤ))) = false) :
    ffRowApply q S ml msl p d = q := by
  apply List.ext_getElem
  · rw [length_ffRowApply]
  · intro l h1 h2
    have hl : l < q.length := by rwa [length_ffRowApply] at h1
    rw [← getD_of_lt _ _ h1, ← getD_of_lt _ _ h2,
      ffRowApply_getD q S ml msl p d l hl]
    have hany : (List.range S).any (fun s =>
        decisionB q msl p d s && decide (maskStartB q ml s ≤ (l : ℤ)) &&
        decide ((l : ℤ) < (segStart q s : ℤ) + (segLen q s : ℤ))) = false := by
      apply List.any_eq_false.mpr
      intro s _
      rw [h s l hl]
      simp
    rw [hany]
    simp

theorem writeWindow_eq_self (row : List ℤ) (lo hi : ℤ) (h : hi ≤ lo) :
    writeWindow row lo hi = row := by
  apply List.ext_getElem
  · rw [length_writeWindow]
  · intro l h1 h2
    have hl : l < row.length := by rwa [length_writeWindow] at h1
    rw [← getD_of_lt _ _ h1, ← getD_of_lt _ _ h2,
      writeWindow_getD row lo hi l hl, if_neg (by omega)]

theorem foldl_id_of_fix {α β : Type} (f : α → β → α) (sel : List β)
    (h : ∀ a b, f a b = a) : ∀ a, sel.foldl f a = a := by
  induction sel with
  | nil => intro a; rfl
  | cons x tl ih =>
    intro a
    rw [List.foldl_cons, h, ih]

/-! ### Claim theorems -/

/-- Claim C1: for every integer alignment matrix with non-negative entries and
identical configuration, Strategy A (`fast_bbc_mask`) and Strategy B
(`fast_fast_bbc_mask`) compute identical `(start, length, value)` triples for
every real segment, and, given synchronized random draws (one draw per real
segment, in the same enumeration order — expressed by `hsync`, which equates
Strategy A's positional draw stream with Strategy B's per-segment-slot draws
along the enumeration of valid segments), produce bit-identical output
matrices. -/
theorem C1_strategies_equivalent (m : List (List ℤ)) (ml msl : ℤ) (p : ℚ)
    (drawsA drawsB : ℕ → ℕ → ℚ)
    (hq : ∀ row ∈ m, ∀ v ∈ row, 0 ≤ v)
    (hsync : ∀ b i (h : i < (validIndices (shiftRow (m.getD b [])) msl).length),
      drawsA b i = drawsB b ((validIndices (shiftRow (m.getD b [])) msl).get ⟨i, h⟩)) :
    (∀ b, b < m.length → ∀ j, j < realCount (shiftRow (m.getD b [])) →
      (segStart (shiftRow (m.getD b [])) j, segLen (shiftRow (m.getD b [])) j,
        segVal (shiftRow (m.getD b [])) j)
        = (segTriples (shiftRow (m.getD b []))).getD j (0, 0, 0)) ∧
    fast_bbc_mask m ml msl p drawsA = fast_fast_bbc_mask m ml msl p drawsB := by
  have hqrow : ∀ b, b < m.length → ∀ v ∈ shiftRow (m.getD b []), 0 ≤ v := by
    intro b hb
    apply shiftRow_entries_nonneg
    apply hq
    rw [getD_of_lt_gen m b [] hb]
    exact List.getElem_mem hb
  constructor
  · intro b hb j hj
    have hj2 := real_of_lt_realCount _ j hj
    rw [segStart_real _ (hqrow b hb) j hj2, segLen_real _ (hqrow b hb) j hj2,
      segVal_real _ (hqrow b hb) j hj2, segTriples_getD _ j hj2]
  · unfold fast_bbc_mask fast_fast_bbc_mask
    simp only [List.length_map]
    apply List.map_congr_left
    intro b hb
    have hblt : b < m.length := List.mem_range.mp hb
    rw [shiftMat_getD m b]
    exact row_equiv (m.getD b []) (hq _ (by
        rw [getD_of_lt_gen m b [] hblt]
        exact List.getElem_mem hblt))
      (maxSegments (m.map shiftRow))
      (realCount_le_maxSegments m hq b hblt) ml msl p (drawsA b) (drawsB b)
      (hsync b)

/-- Witness for C1 at a concrete matrix: two rows, identical constant draws on
both sides. -/
theorem C1_witness :
    fast_bbc_mask [[0, 0, 3, 3, 3, 3, 3, 3, 0, 5, 5, 5, 5], [2, 2, 2, 2, 2, 0]]
        2 5 1 (fun _ _ => 0)
      = fast_fast_bbc_mask [[0, 0, 3, 3, 3, 3, 3, 3, 0, 5, 5, 5, 5], [2, 2, 2, 2, 2, 0]]
        2 5 1 (fun _ _ => 0) :=
  (C1_strategies_equivalent _ 2 5 1 (fun _ _ => 0) (fun _ _ => 0)
    (by decide) (fun b i h => rfl)).2

/-- Claim C9: for every input matrix, every `mask_length` and
`min_segment_length`, and every draw sequence taking values in `[0, 1)` (only
`0 ≤ draw` is needed), calling either operation with `mask_prob = 0` returns
exactly the shifted input: no marker is written anywhere. -/
theorem C9_prob_zero_is_shift (m : List (List ℤ)) (ml msl : ℤ)
    (draws : ℕ → ℕ → ℚ) (hd : ∀ b k, 0 ≤ draws b k) :
    fast_bbc_mask m ml msl 0 draws = shiftMat m ∧
    fast_fast_bbc_mask m ml msl 0 draws = shiftMat m := by
  constructor
  · apply fastMat_eq_shift_of_rows
    intro b _
    show List.foldl (applySegA (shiftRow (m.getD b [])) ml) (shiftRow (m.getD b []))
      (selectIdx 0 (draws b) 0 (validIndices (shiftRow (m.getD b [])) msl))
      = shiftRow (m.getD b [])
    rw [selectIdx_eq_nil 0 (draws b) (fun k => by
      have := hd b k
      intro hc
      exact absurd (lt_of_le_of_lt this hc) (lt_irrefl 0))]
    rfl
  · apply ffMat_eq_shift_of_rows
    intro b _
    apply ffRowApply_eq_self_of_any_false
    intro s l _
    have : decisionB (shiftRow (m.getD b [])) msl 0 (draws b) s = false := by
      unfold decisionB
      have hds : decide (draws b s < 0) = false := by
        simp only [decide_eq_false_iff_not]
        intro hc
        exact absurd (lt_of_le_of_lt (hd b s) hc) (lt_irrefl 0)
      rw [hds]
      simp
    rw [this]
    simp

/-- Witness for C9: concrete matrix, constant draw 0, `mask_prob = 0` leaves
the shifted matrix unchanged. -/
theorem C9_witness :
    fast_bbc_mask [[0, 0, 3, 3, 3, 3, 3, 3, 0, 5, 5, 5, 5]] 2 5 0 (fun _ _ => 0)
        = shiftMat [[0, 0, 3, 3, 3, 3, 3, 3, 0, 5, 5, 5, 5]] ∧
      fast_fast_bbc_mask [[0, 0, 3, 3, 3, 3, 3, 3, 0, 5, 5, 5, 5]] 2 5 0
        (fun _ _ => 0) = shiftMat [[0, 0, 3, 3, 3, 3, 3, 3, 0, 5, 5, 5, 5]] :=
  C9_prob_zero_is_shift _ 2 5 (fun _ _ => 0) (fun _ _ => le_refl 0)

/-- Claim C5 counterexample: with the malformed configuration
`mask_length = 0` the sequential operation raises nothing: it silently
produces an output matrix (the shifted input), contradicting the claim that a
validation error is raised before any computation.  The batched operation
behaves identically. -/
theorem C5_counterexample :
    fast_bbc_mask [[3, 3, 3, 3, 3]] 0 5 1 (fun _ _ => 0) = [[4, 4, 4, 4, 4]] ∧
    fast_fast_bbc_mask [[3, 3, 3, 3, 3]] 0 5 1 (fun _ _ => 0)
      = [[4, 4, 4, 4, 4]] := by
  constructor <;> decide

/-- Claim C5 (amended): neither operation validates its configuration; no
error is ever raised.  With non-positive `mask_length` every mask window is
empty, so both operations silently return the shifted matrix instead of
failing fast. -/
theorem C5_amended_no_validation (m : List (List ℤ)) (ml msl : ℤ) (p : ℚ)
    (draws : ℕ → ℕ → ℚ) (hml : ml ≤ 0) :
    fast_bbc_mask m ml msl p draws = shiftMat m ∧
    fast_fast_bbc_mask m ml msl p draws = shiftMat m := by
  constructor
  · apply fastMat_eq_shift_of_rows
    intro b _
    unfold fastRowA
    apply foldl_id_of_fix
    intro row j
    apply writeWindow_eq_self
    unfold aStart aEnd
    have h0 : (0 : ℤ) ≤ ((((segTriples (shiftRow (m.getD b []))).getD j
      (0, 0, 0)).2.1 : ℕ) : ℤ) := Int.natCast_nonneg _
    omega
  · apply ffMat_eq_shift_of_rows
    intro b _
    apply ffRowApply_eq_self_of_any_false
    intro s l _
    unfold maskStartB
    rcases Bool.eq_false_or_eq_true
      (decide ((l : ℤ) < (segStart (shiftRow (m.getD b [])) s : ℤ)
        + (segLen (shiftRow (m.getD b [])) s : ℤ))) with hw2 | hw2
    · simp only [decide_eq_true_eq] at hw2
      have hw1 : decide (max (segStart (shiftRow (m.getD b [])) s : ℤ)
          ((segStart (shiftRow (m.getD b [])) s : ℤ)
            + (segLen (shiftRow (m.getD b [])) s : ℤ) - ml) ≤ (l : ℤ)) = false := by
        simp only [decide_eq_false_iff_not]
        omega
      rw [hw1]
      simp
    · rw [hw2]
      simp

/-- Witness for C5's amended statement at a concrete malformed configuration. -/
theorem C5_amended_witness :
    fast_bbc_mask [[3, 3, 3, 3, 3]] (-2) 5 1 (fun _ _ => 0)
        = shiftMat [[3, 3, 3, 3, 3]] ∧
      fast_fast_bbc_mask [[3, 3, 3, 3, 3]] (-2) 5 1 (fun _ _ => 0)
        = shiftMat [[3, 3, 3, 3, 3]] :=
  C5_amended_no_validation _ (-2) 5 1 (fun _ _ => 0) (by omega)

/-- Claim C7: in Strategy B, for every sample `b` of a non-negative matrix and
every segment slot `s` at or beyond that sample's real segment count, the
computed length is `0` and the computed start saturates to `L`; with
`min_segment_length ≥ 1` such a slot is never eligible and never selected,
for every `mask_prob` and every draw. -/
theorem C7_padding_slots_inert (m : List (List ℤ))
    (hq : ∀ row ∈ m, ∀ v ∈ row, 0 ≤ v) (b : ℕ) (hb : b < m.length) (s : ℕ)
    (hs : realCount (shiftRow (m.getD b [])) ≤ s) :
    segLen (shiftRow (m.getD b [])) s = 0 ∧
    segStart (shiftRow (m.getD b [])) s = (m.getD b []).length ∧
    ∀ (msl : ℤ), 1 ≤ msl → ∀ (p : ℚ) (draws : ℕ → ℚ),
      validSlot (shiftRow (m.getD b [])) msl s = false ∧
      decisionB (shiftRow (m.getD b [])) msl p draws s = false := by
  have hq2 : ∀ v ∈ shiftRow (m.getD b []), 0 ≤ v := by
    apply shiftRow_entries_nonneg
    apply hq
    rw [getD_of_lt_gen m b [] hb]
    exact List.getElem_mem hb
  have hpad : (boundaries (shiftRow (m.getD b []))).length ≤ s + 1 := by
    rw [realCount_eq] at hs
    omega
  have hlen := segLen_pad _ hq2 s hpad
  have hstart := segStart_pad _ hq2 s hpad
  refine ⟨hlen, by rw [hstart, length_shiftRow], ?_⟩
  intro msl hmsl p draws
  have hvs : validSlot (shiftRow (m.getD b [])) msl s = false := by
    unfold validSlot
    rw [hlen]
    have : decide (msl ≤ ((0 : ℕ) : ℤ)) = false := by
      simp only [decide_eq_false_iff_not]
      omega
    rw [this]
    simp
  refine ⟨hvs, ?_⟩
  unfold decisionB
  rw [hvs]
  simp

/-- Witness for C7 at a concrete two-row matrix: the second row has one real
segment, so slot 1 is a padding slot for it. -/
theorem C7_witness :
    segLen (shiftRow [7, 7, 7]) 1 = 0 ∧
      segStart (shiftRow [7, 7, 7]) 1 = ([7, 7, 7] : List ℤ).length ∧
      ∀ (msl : ℤ), 1 ≤ msl → ∀ (p : ℚ) (draws : ℕ → ℚ),
        validSlot (shiftRow [7, 7, 7]) msl 1 = false ∧
        decisionB (shiftRow [7, 7, 7]) msl p draws 1 = false :=
  C7_padding_slots_inert [[0, 0, 3, 3], [7, 7, 7]] (by decide) 1 (by decide) 1
    (by decide)

theorem validIndices_eq_nil (q : List ℤ) (msl : ℤ)
    (h : ∀ j, j < (segTriples q).length →
      validTriple msl ((segTriples q).getD j (0, 0, 0)) = false) :
    validIndices q msl = [] := by
  unfold validIndices
  rw [List.filter_eq_nil]
  intro j hj
  rw [h j (List.mem_range.mp hj)]
  simp

theorem selectedA_of_validIndices_nil (q : List ℤ) (msl : ℤ) (p : ℚ)
    (d : ℕ → ℚ) (h : validIndices q msl = []) : selectedA q msl p d = [] := by
  unfold selectedA
  rw [h]
  rfl

theorem fastRowA_eq_shift_of_nil (r : List ℤ) (ml msl : ℤ) (p : ℚ) (d : ℕ → ℚ)
    (h : selectedA (shiftRow r) msl p d = []) :
    fastRowA r ml msl p d = shiftRow r := by
  show List.foldl (applySegA (shiftRow r) ml) (shiftRow r)
    (selectedA (shiftRow r) msl p d) = shiftRow r
  rw [h]
  rfl

theorem uniform_row_invalid (r : List ℤ) (c msl : ℤ) (hr : ∀ v ∈ r, 0 ≤ v)
    (huni : ∀ v ∈ r, v = c) (hdeg : c = 0 ∨ (r.length : ℤ) < msl) :
    ∀ j, j < (segTriples (shiftRow r)).length →
      validTriple msl ((segTriples (shiftRow r)).getD j (0, 0, 0)) = false := by
  intro j hj
  have hq2 : ∀ v ∈ shiftRow r, 0 ≤ v := shiftRow_entries_nonneg r hr
  have hj2 : j + 1 < (boundaries (shiftRow r)).length :=
    real_of_lt_realCount _ j hj
  rw [segTriples_getD _ j hj2]
  have hbl : bnd (shiftRow r) j < r.length := by
    have h1 := bnd_lt_bnd (shiftRow r) j hj2
    have h2 := bnd_le_len (shiftRow r) (j + 1) hj2
    rw [length_shiftRow] at h2
    omega
  have hval : (shiftRow r).getD (bnd (shiftRow r) j) 0 = shiftVal c := by
    rw [shiftRow_getD r _ hbl]
    congr 1
    rw [getD_of_lt r _ hbl]
    exact huni _ (List.getElem_mem hbl)
  rcases hdeg with rfl | hL
  · unfold validTriple
    simp only [hval]
    have : shiftVal 0 = 0 := rfl
    rw [this]
    simp
  · unfold validTriple
    have hn : ((bnd (shiftRow r) (j + 1) - bnd (shiftRow r) j : ℕ) : ℤ) < msl := by
      have h2 := bnd_le_len (shiftRow r) (j + 1) hj2
      rw [length_shiftRow] at h2
      have : (bnd (shiftRow r) (j + 1) - bnd (shiftRow r) j : ℕ) ≤ r.length := by
        omega
      omega
    have : decide (msl ≤ ((bnd (shiftRow r) (j + 1) - bnd (shiftRow r) j : ℕ) : ℤ))
        = false := by
      simp only [decide_eq_false_iff_not]
      omega
    simp only [this]
    simp

/-- Claim C8: degenerate inputs are not errors.  (a) A sample that is a single
uniform run (value `c` everywhere, including the all-zero row) yields zero
selected segments — in either strategy — whenever the run is padding (`c = 0`)
or shorter than `min_segment_length`; (b) a batch in which no segment is
eligible returns the shifted array unchanged from both operations. -/
theorem C8_degenerate_not_error (ml msl : ℤ) (p : ℚ) :
    (∀ (r : List ℤ) (c : ℤ), (∀ v ∈ r, 0 ≤ v) → (∀ v ∈ r, v = c) →
      (c = 0 ∨ (r.length : ℤ) < msl) → ∀ d : ℕ → ℚ,
      selectedA (shiftRow r) msl p d = [] ∧
      ∀ s, decisionB (shiftRow r) msl p d s = false) ∧
    (∀ (m : List (List ℤ)) (draws : ℕ → ℕ → ℚ),
      (∀ row ∈ m, ∀ v ∈ row, 0 ≤ v) →
      (∀ b, b < m.length → ∀ j, j < realCount (shiftRow (m.getD b [])) →
        validTriple msl ((segTriples (shiftRow (m.getD b []))).getD j (0, 0, 0))
          = false) →
      fast_bbc_mask m ml msl p draws = shiftMat m ∧
      fast_fast_bbc_mask m ml msl p draws = shiftMat m) := by
  constructor
  · intro r c hr huni hdeg d
    have hq2 : ∀ v ∈ shiftRow r, 0 ≤ v := shiftRow_entries_nonneg r hr
    have hinv := uniform_row_invalid r c msl hr huni hdeg
    refine ⟨selectedA_of_validIndices_nil _ msl p d
      (validIndices_eq_nil _ msl hinv), ?_⟩
    intro s
    unfold decisionB
    by_cases hcase : s + 1 < (boundaries (shiftRow r)).length
    · have hreal : s < (segTriples (shiftRow r)).length := by
        rw [segTriples_length]
        omega
      rw [validSlot_eq_validTriple _ hq2 msl s hcase, hinv s hreal]
      simp
    · push_neg at hcase
      have hvs : validSlot (shiftRow r) msl s = false := by
        unfold validSlot
        rw [segLen_pad _ hq2 s hcase]
        rcases hdeg with rfl | hL
        · have hsum : (shiftRow r).sum = 0 := by
            apply List.sum_eq_zero
            intro x hx
            obtain ⟨w, hw, rfl⟩ := List.mem_map.mp hx
            rw [huni w hw]
            rfl
          rw [segVal_pad _ hq2 s hcase, hsum]
          simp
        · have : decide (msl ≤ ((0 : ℕ) : ℤ)) = false := by
            simp only [decide_eq_false_iff_not]
            have : (0 : ℤ) ≤ (r.length : ℤ) := Int.natCast_nonneg _
            omega
          rw [this]
          simp
      rw [hvs]
      simp
  · intro m draws hq hno
    have hqrow : ∀ b, b < m.length → ∀ v ∈ shiftRow (m.getD b []), 0 ≤ v := by
      intro b hb
      apply shiftRow_entries_nonneg
      apply hq
      rw [getD_of_lt_gen m b [] hb]
      exact List.getElem_mem hb
    constructor
    · apply fastMat_eq_shift_of_rows
      intro b hb
      exact fastRowA_eq_shift_of_nil _ ml msl p _
        (selectedA_of_validIndices_nil _ msl p _
          (validIndices_eq_nil _ msl (hno b hb)))
    · apply ffMat_eq_shift_of_rows
      intro b hb
      apply ffRowApply_eq_self_of_any_false
      intro s l hl
      by_cases hcase : s + 1 < (boundaries (shiftRow (m.getD b []))).length
      · have hreal : s < (segTriples (shiftRow (m.getD b []))).length := by
          rw [segTriples_length]
          omega
        have hdec : decisionB (shiftRow (m.getD b [])) msl p (draws b) s = false := by
          unfold decisionB
          rw [validSlot_eq_validTriple _ (hqrow b hb) msl s hcase, hno b hb s hreal]
          simp
        rw [hdec]
        simp
      · push_neg at hcase
        have hw1 : decide (maskStartB (shiftRow (m.getD b [])) ml s ≤ (l : ℤ))
            = false := by
          unfold maskStartB
          rw [segStart_pad _ (hqrow b hb) s hcase, segLen_pad _ (hqrow b hb) s hcase]
          simp only [decide_eq_false_iff_not]
          rw [length_shiftRow] at hl
          have : (l : ℤ) < ((m.getD b []).length : ℤ) := by exact_mod_cast hl
          rw [length_shiftRow]
          omega
        rw [hw1]
        simp

/-- Witness for C8: the all-zero row and a batch whose only real segments are
padding or too short. -/
theorem C8_witness :
    (selectedA (shiftRow [0, 0, 0, 0]) 5 1 (fun _ => 0) = [] ∧
      ∀ s, decisionB (shiftRow [0, 0, 0, 0]) 5 1 (fun _ => 0) s = false) ∧
    (fast_bbc_mask [[0, 0, 3, 3, 0]] 2 5 1 (fun _ _ => 0)
        = shiftMat [[0, 0, 3, 3, 0]] ∧
      fast_fast_bbc_mask [[0, 0, 3, 3, 0]] 2 5 1 (fun _ _ => 0)
        = shiftMat [[0, 0, 3, 3, 0]]) :=
  ⟨(C8_degenerate_not_error 2 5 1).1 [0, 0, 0, 0] 0 (by decide) (by decide)
      (Or.inl rfl) (fun _ => 0),
    (C8_degenerate_not_error 2 5 1).2 [[0, 0, 3, 3, 0]] (fun _ _ => 0)
      (by decide) (by decide)⟩

theorem fast_bbc_mask_row (m : List (List ℤ)) (ml msl : ℤ) (p : ℚ)
    (draws : ℕ → ℕ → ℚ) (b : ℕ) (hb : b < m.length) :
    (fast_bbc_mask m ml msl p draws).getD b []
      = fastRowA (m.getD b []) ml msl p (draws b) := by
  unfold fast_bbc_mask
  rw [getD_of_lt_gen _ b [] (by simpa using hb)]
  simp

theorem fast_fast_bbc_mask_row (m : List (List ℤ)) (ml msl : ℤ) (p : ℚ)
    (draws : ℕ → ℕ → ℚ) (b : ℕ) (hb : b < m.length) :
    (fast_fast_bbc_mask m ml msl p draws).getD b []
      = ffRowApply (shiftRow (m.getD b [])) (maxSegments (m.map shiftRow))
          ml msl p (draws b) := by
  unfold fast_fast_bbc_mask
  rw [getD_of_lt_gen _ b [] (by simpa using hb)]
  simp only [List.getElem_map, List.getElem_range, List.length_map]
  rw [shiftMat_getD m b]

theorem coversA_sub_segment (q : List ℤ) (ml : ℤ) (j : ℕ)
    (hj : j + 1 < (boundaries q).length) (l : ℕ)
    (hcov : coversA q ml j l = true) :
    bnd q j ≤ l ∧ l < bnd q (j + 1) := by
  unfold coversA aStart aEnd at hcov
  rw [segTriples_getD q j hj] at hcov
  simp only [Bool.and_eq_true, decide_eq_true_eq] at hcov
  have hlt := bnd_lt_bnd q j hj
  omega

theorem coversA_unique (q : List ℤ) (hq : ∀ v ∈ q, 0 ≤ v) (ml : ℤ) (j : ℕ)
    (hj : j + 1 < (boundaries q).length) (j' : ℕ)
    (hj' : j' + 1 < (boundaries q).length) (l : ℕ)
    (hin : bnd q j ≤ l ∧ l < bnd q (j + 1))
    (hcov : coversA q ml j' l = true) : j' = j := by
  have hsub := coversA_sub_segment q ml j' hj' l hcov
  have hlL : l < q.length := lt_of_lt_of_le hin.2 (bnd_le_len q (j + 1) hj)
  have e1 := (segIdAt_iff_bnd q hq l hlL j hj).mpr hin
  have e2 := (segIdAt_iff_bnd q hq l hlL j' hj').mpr hsub
  omega

/-- Claim C2: for every non-negative input, `min_segment_length ≥ 1` and any
draws, a segment whose value is `0` or whose length is below
`min_segment_length` is never selected: none of its frames is overwritten
with the marker by either operation (they keep their shifted values). -/
theorem C2_ineligible_never_masked (m : List (List ℤ)) (ml msl : ℤ) (p : ℚ)
    (drawsA drawsB : ℕ → ℕ → ℚ) (hq : ∀ row ∈ m, ∀ v ∈ row, 0 ≤ v)
    (hmsl : 1 ≤ msl) (b : ℕ) (hb : b < m.length) (j : ℕ)
    (hj : j < realCount (shiftRow (m.getD b [])))
    (hinel : ((segTriples (shiftRow (m.getD b []))).getD j (0, 0, 0)).2.2 = 0 ∨
      ((((segTriples (shiftRow (m.getD b []))).getD j (0, 0, 0)).2.1 : ℕ) : ℤ) < msl)
    (l : ℕ)
    (hl1 : ((segTriples (shiftRow (m.getD b []))).getD j (0, 0, 0)).1 ≤ l)
    (hl2 : l < ((segTriples (shiftRow (m.getD b []))).getD j (0, 0, 0)).1
      + ((segTriples (shiftRow (m.getD b []))).getD j (0, 0, 0)).2.1) :
    ((fast_bbc_mask m ml msl p drawsA).getD b []).getD l 0
        = (shiftRow (m.getD b [])).getD l 0 ∧
    ((fast_fast_bbc_mask m ml msl p drawsB).getD b []).getD l 0
        = (shiftRow (m.getD b [])).getD l 0 := by
  have hq2 : ∀ v ∈ shiftRow (m.getD b []), 0 ≤ v := by
    apply shiftRow_entries_nonneg
    apply hq
    rw [getD_of_lt_gen m b [] hb]
    exact List.getElem_mem hb
  have hj2 : j + 1 < (boundaries (shiftRow (m.getD b []))).length :=
    real_of_lt_realCount _ j hj
  have ht := segTriples_getD _ j hj2
  have hc1 : ((segTriples (shiftRow (m.getD b []))).getD j (0, 0, 0)).1
      = bnd (shiftRow (m.getD b [])) j := by
    rw [ht]
  have hc2 : ((segTriples (shiftRow (m.getD b []))).getD j (0, 0, 0)).2.1
      = bnd (shiftRow (m.getD b [])) (j + 1) - bnd (shiftRow (m.getD b [])) j := by
    rw [ht]
  have hlt := bnd_lt_bnd (shiftRow (m.getD b [])) j hj2
  have hin : bnd (shiftRow (m.getD b [])) j ≤ l ∧
      l < bnd (shiftRow (m.getD b [])) (j + 1) := by
    rw [hc1] at hl1
    rw [hc1, hc2] at hl2
    omega
  have hinvalid : validTriple msl
      ((segTriples (shiftRow (m.getD b []))).getD j (0, 0, 0)) = false := by
    unfold validTriple
    rcases hinel with h0 | hshort
    · rw [h0]
      simp
    · have : decide (msl ≤ ((((segTriples (shiftRow (m.getD b []))).getD j
          (0, 0, 0)).2.1 : ℕ) : ℤ)) = false := by
        simp only [decide_eq_false_iff_not]
        omega
      rw [this]
      simp
  have hlL : l < (shiftRow (m.getD b [])).length :=
    lt_of_lt_of_le hin.2 (bnd_le_len _ (j + 1) hj2)
  have hlr : l < (m.getD b []).length := by
    rwa [length_shiftRow] at hlL
  constructor
  · rw [fast_bbc_mask_row m ml msl p drawsA b hb,
      fastRowA_getD _ ml msl p (drawsA b) l hlr]
    have hany : (selectedA (shiftRow (m.getD b [])) msl p (drawsA b)).any
        (fun i => coversA (shiftRow (m.getD b [])) ml i l) = false := by
      apply List.any_eq_false.mpr
      intro j' hj'mem
      intro hcov
      have hj'v := mem_selectIdx p (drawsA b) _ 0 j' hj'mem
      obtain ⟨hj'lt, hj't⟩ := (mem_validIndices _ msl j').mp hj'v
      have hj'2 : j' + 1 < (boundaries (shiftRow (m.getD b []))).length :=
        real_of_lt_realCount _ j' hj'lt
      have := coversA_unique _ hq2 ml j hj2 j' hj'2 l hin hcov
      rw [this] at hj't
      rw [hinvalid] at hj't
      exact Bool.false_ne_true hj't
    rw [hany]
    simp
  · rw [fast_fast_bbc_mask_row m ml msl p drawsB b hb,
      ffRowApply_getD _ _ ml msl p (drawsB b) l hlL]
    have hany : (List.range (maxSegments (m.map shiftRow))).any (fun s =>
        decisionB (shiftRow (m.getD b [])) msl p (drawsB b) s &&
        decide (maskStartB (shiftRow (m.getD b [])) ml s ≤ (l : ℤ)) &&
        decide ((l : ℤ) < (segStart (shiftRow (m.getD b [])) s : ℤ)
          + (segLen (shiftRow (m.getD b [])) s : ℤ))) = false := by
      apply List.any_eq_false.mpr
      intro s _
      intro hs
      simp only [Bool.and_eq_true] at hs
      obtain ⟨⟨hdec, hw1⟩, hw2⟩ := hs
      by_cases hcase : s + 1 < (boundaries (shiftRow (m.getD b []))).length
      · have hcov : coversA (shiftRow (m.getD b [])) ml s l = true := by
          unfold coversA
          rw [← maskStartB_eq_aStart _ hq2 ml s hcase,
            ← segEnd_eq_aEnd _ hq2 s hcase]
          simp only [Bool.and_eq_true]
          exact ⟨hw1, hw2⟩
        have hseq := coversA_unique _ hq2 ml j hj2 s hcase l hin hcov
        unfold decisionB at hdec
        simp only [Bool.and_eq_true] at hdec
        have := hdec.1
        rw [hseq, validSlot_eq_validTriple _ hq2 msl j hj2, hinvalid] at this
        exact Bool.false_ne_true this
      · push_neg at hcase
        unfold maskStartB at hw1
        rw [segStart_pad _ hq2 s hcase, segLen_pad _ hq2 s hcase] at hw1
        simp only [decide_eq_true_eq] at hw1
        have : (l : ℤ) < ((shiftRow (m.getD b [])).length : ℤ) := by
          exact_mod_cast hlL
        omega
    rw [hany]
    simp

/-- Witness for C2: in the spec's worked example, segment 3 (`(9, 4, 6)`) is
too short; its frame 10 keeps value 6 in both outputs. -/
theorem C2_witness :
    ((fast_bbc_mask [[0, 0, 3, 3, 3, 3, 3, 3, 0, 5, 5, 5, 5]] 2 5 1
        (fun _ _ => 0)).getD 0 []).getD 10 0
      = (shiftRow [0, 0, 3, 3, 3, 3, 3, 3, 0, 5, 5, 5, 5]).getD 10 0 ∧
    ((fast_fast_bbc_mask [[0, 0, 3, 3, 3, 3, 3, 3, 0, 5, 5, 5, 5]] 2 5 1
        (fun _ _ => 0)).getD 0 []).getD 10 0
      = (shiftRow [0, 0, 3, 3, 3, 3, 3, 3, 0, 5, 5, 5, 5]).getD 10 0 :=
  C2_ineligible_never_masked [[0, 0, 3, 3, 3, 3, 3, 3, 0, 5, 5, 5, 5]] 2 5 1
    (fun _ _ => 0) (fun _ _ => 0) (by decide) (by decide) 0 (by decide) 3
    (by decide) (Or.inr (by decide)) 10 (by decide) (by decide)

/-- Claim C3: for every real segment with descriptor `(start, length)` of a
non-negative row and every `mask_length ≥ 1`: (i) the per-segment writer of
Strategy A overwrites exactly the frames of the half-open window
`[max(start, start+length-mask_length), start+length)` with the marker `1`;
(ii) that window is contained in the segment's own frames
`[start, start+length)`; (iii) it holds exactly `min(mask_length, length)`
frames; and (iv) Strategy B's writer computes the same two window bounds for
that segment. -/
theorem C3_window_exact (r : List ℤ) (hq : ∀ v ∈ r, 0 ≤ v) (ml : ℤ)
    (hml : 1 ≤ ml) (j : ℕ) (hj : j < realCount (shiftRow r)) :
    (∀ (row : List ℤ) (l : ℕ), l < row.length →
      (applySegA (shiftRow r) ml row j).getD l 0 =
        if max ((((segTriples (shiftRow r)).getD j (0, 0, 0)).1 : ℕ) : ℤ)
            (((((segTriples (shiftRow r)).getD j (0, 0, 0)).1 : ℕ) : ℤ)
              + ((((segTriples (shiftRow r)).getD j (0, 0, 0)).2.1 : ℕ) : ℤ) - ml)
            ≤ (l : ℤ) ∧
          (l : ℤ) < ((((segTriples (shiftRow r)).getD j (0, 0, 0)).1 : ℕ) : ℤ)
            + ((((segTriples (shiftRow r)).getD j (0, 0, 0)).2.1 : ℕ) : ℤ)
        then 1 else row.getD l 0) ∧
    (∀ l : ℤ, max ((((segTriples (shiftRow r)).getD j (0, 0, 0)).1 : ℕ) : ℤ)
          (((((segTriples (shiftRow r)).getD j (0, 0, 0)).1 : ℕ) : ℤ)
            + ((((segTriples (shiftRow r)).getD j (0, 0, 0)).2.1 : ℕ) : ℤ) - ml)
          ≤ l ∧
        l < ((((segTriples (shiftRow r)).getD j (0, 0, 0)).1 : ℕ) : ℤ)
          + ((((segTriples (shiftRow r)).getD j (0, 0, 0)).2.1 : ℕ) : ℤ) →
      ((((segTriples (shiftRow r)).getD j (0, 0, 0)).1 : ℕ) : ℤ) ≤ l ∧
        l < ((((segTriples (shiftRow r)).getD j (0, 0, 0)).1 : ℕ) : ℤ)
          + ((((segTriples (shiftRow r)).getD j (0, 0, 0)).2.1 : ℕ) : ℤ)) ∧
    (Finset.Ico
        (max ((((segTriples (shiftRow r)).getD j (0, 0, 0)).1 : ℕ) : ℤ)
          (((((segTriples (shiftRow r)).getD j (0, 0, 0)).1 : ℕ) : ℤ)
            + ((((segTriples (shiftRow r)).getD j (0, 0, 0)).2.1 : ℕ) : ℤ) - ml))
        (((((segTriples (shiftRow r)).getD j (0, 0, 0)).1 : ℕ) : ℤ)
          + ((((segTriples (shiftRow r)).getD j (0, 0, 0)).2.1 : ℕ) : ℤ))).card
      = min ml.toNat ((segTriples (shiftRow r)).getD j (0, 0, 0)).2.1 ∧
    (maskStartB (shiftRow r) ml j
        = max ((((segTriples (shiftRow r)).getD j (0, 0, 0)).1 : ℕ) : ℤ)
          (((((segTriples (shiftRow r)).getD j (0, 0, 0)).1 : ℕ) : ℤ)
            + ((((segTriples (shiftRow r)).getD j (0, 0, 0)).2.1 : ℕ) : ℤ) - ml) ∧
      (segStart (shiftRow r) j : ℤ) + (segLen (shiftRow r) j : ℤ)
        = ((((segTriples (shiftRow r)).getD j (0, 0, 0)).1 : ℕ) : ℤ)
          + ((((segTriples (shiftRow r)).getD j (0, 0, 0)).2.1 : ℕ) : ℤ)) := by
  have hq2 : ∀ v ∈ shiftRow r, 0 ≤ v := shiftRow_entries_nonneg r hq
  have hj2 : j + 1 < (boundaries (shiftRow r)).length :=
    real_of_lt_realCount _ j hj
  refine ⟨?_, ?_, ?_, ?_, ?_⟩
  · intro row l hl
    unfold applySegA aStart aEnd
    rw [writeWindow_getD row _ _ l hl]
  · intro l hcov
    refine ⟨le_trans (le_max_left _ _) hcov.1, hcov.2⟩
  · rw [Int.card_Ico]
    have hn : (0 : ℤ) ≤ ((((segTriples (shiftRow r)).getD j (0, 0, 0)).2.1 : ℕ) : ℤ) :=
      Int.natCast_nonneg _
    omega
  · exact maskStartB_eq_aStart _ hq2 ml j hj2
  · exact segEnd_eq_aEnd _ hq2 j hj2

/-- Witness for C3 at the spec's worked example: the eligible segment
`(2, 6, 4)` with `mask_length = 2`. -/
theorem C3_witness_example :
    ((2 : ℕ), (6 : ℕ), (4 : ℤ))
        = (segTriples (shiftRow [0, 0, 3, 3, 3, 3, 3, 3, 0, 5, 5, 5, 5])).getD 1
          (0, 0, 0) ∧
      (applySegA (shiftRow [0, 0, 3, 3, 3, 3, 3, 3, 0, 5, 5, 5, 5]) 2
          (shiftRow [0, 0, 3, 3, 3, 3, 3, 3, 0, 5, 5, 5, 5]) 1).getD 6 0 = 1 :=
  ⟨by decide, by
    rw [(C3_window_exact [0, 0, 3, 3, 3, 3, 3, 3, 0, 5, 5, 5, 5] (by decide) 2
        (by decide) 1 (by decide)).1 (shiftRow [0, 0, 3, 3, 3, 3, 3, 3, 0, 5, 5, 5, 5])
        6 (by decide)]
    decide⟩

theorem covered_frame_ne_zero_A (q : List ℤ) (hq : ∀ v ∈ q, 0 ≤ v)
    (ml msl : ℤ) (p : ℚ) (d : ℕ → ℚ) (l : ℕ)
    (hany : (selectedA q msl p d).any (fun j => coversA q ml j l) = true) :
    q.getD l 0 ≠ 0 := by
  obtain ⟨j, hjmem, hcov⟩ := List.any_eq_true.mp hany
  have hjv := mem_selectIdx p d _ 0 j hjmem
  obtain ⟨hjlt, hjt⟩ := (mem_validIndices q msl j).mp hjv
  have hj2 := real_of_lt_realCount q j hjlt
  have hsub := coversA_sub_segment q ml j hj2 l hcov
  have hconst := const_on_segment q hq j hj2 l hsub.1 hsub.2
  rw [hconst]
  rw [segTriples_getD q j hj2] at hjt
  unfold validTriple at hjt
  simp only [Bool.and_eq_true, bne_iff_ne, ne_eq] at hjt
  exact hjt.1

theorem covered_frame_ne_zero_B (q : List ℤ) (hq : ∀ v ∈ q, 0 ≤ v)
    (ml msl : ℤ) (p : ℚ) (d : ℕ → ℚ) (S : ℕ) (l : ℕ) (hl : l < q.length)
    (hany : (List.range S).any (fun s =>
      decisionB q msl p d s && decide (maskStartB q ml s ≤ (l : ℤ)) &&
      decide ((l : ℤ) < (segStart q s : ℤ) + (segLen q s : ℤ))) = true) :
    q.getD l 0 ≠ 0 := by
  obtain ⟨s, _, hs⟩ := List.any_eq_true.mp hany
  simp only [Bool.and_eq_true] at hs
  obtain ⟨⟨hdec, hw1⟩, hw2⟩ := hs
  by_cases hcase : s + 1 < (boundaries q).length
  · have hcov : coversA q ml s l = true := by
      unfold coversA
      rw [← maskStartB_eq_aStart q hq ml s hcase, ← segEnd_eq_aEnd q hq s hcase]
      simp only [Bool.and_eq_true]
      exact ⟨hw1, hw2⟩
    have hsub := coversA_sub_segment q ml s hcase l hcov
    have hconst := const_on_segment q hq s hcase l hsub.1 hsub.2
    rw [hconst]
    unfold decisionB at hdec
    simp only [Bool.and_eq_true] at hdec
    have hvs := hdec.1
    unfold validSlot at hvs
    simp only [Bool.and_eq_true, bne_iff_ne, ne_eq] at hvs
    rw [← segVal_real q hq s hcase]
    exact hvs.1
  · exfalso
    push_neg at hcase
    unfold maskStartB at hw1
    rw [segStart_pad q hq s hcase, segLen_pad q hq s hcase] at hw1
    simp only [decide_eq_true_eq] at hw1
    have : (l : ℤ) < (q.length : ℤ) := by exact_mod_cast hl
    omega

/-- Claim C4: marker exclusivity.  For a non-negative input, a frame of the
output is `1` exactly when the mask writer wrote it: the shifted row never
contains `1` (the shift maps `0` to `0` and positives to `≥ 2`), so an output
frame equals `1` iff some selected segment's window covers it, in either
strategy. -/
theorem C4_marker_exclusive (m : List (List ℤ)) (ml msl : ℤ) (p : ℚ)
    (drawsA drawsB : ℕ → ℕ → ℚ) (hq : ∀ row ∈ m, ∀ v ∈ row, 0 ≤ v) (b : ℕ)
    (hb : b < m.length) (l : ℕ) (hl : l < (m.getD b []).length) :
    (shiftRow (m.getD b [])).getD l 0 ≠ 1 ∧
    (((fast_bbc_mask m ml msl p drawsA).getD b []).getD l 0 = 1 ↔
      (selectedA (shiftRow (m.getD b [])) msl p (drawsA b)).any
        (fun j => coversA (shiftRow (m.getD b [])) ml j l) = true) ∧
    (((fast_fast_bbc_mask m ml msl p drawsB).getD b []).getD l 0 = 1 ↔
      (List.range (maxSegments (m.map shiftRow))).any (fun s =>
        decisionB (shiftRow (m.getD b [])) msl p (drawsB b) s &&
        decide (maskStartB (shiftRow (m.getD b [])) ml s ≤ (l : ℤ)) &&
        decide ((l : ℤ) < (segStart (shiftRow (m.getD b [])) s : ℤ)
          + (segLen (shiftRow (m.getD b [])) s : ℤ))) = true) := by
  have hrowmem : m.getD b [] ∈ m := by
    rw [getD_of_lt_gen m b [] hb]
    exact List.getElem_mem hb
  have hshift1 : (shiftRow (m.getD b [])).getD l 0 ≠ 1 := by
    rw [shiftRow_getD _ l hl]
    apply shiftVal_ne_one
    rw [getD_of_lt _ l hl]
    exact hq _ hrowmem _ (List.getElem_mem hl)
  have hlq : l < (shiftRow (m.getD b [])).length := by rwa [length_shiftRow]
  refine ⟨hshift1, ?_, ?_⟩
  · rw [fast_bbc_mask_row m ml msl p drawsA b hb,
      fastRowA_getD _ ml msl p (drawsA b) l hl]
    rcases Bool.eq_false_or_eq_true ((selectedA (shiftRow (m.getD b [])) msl p
      (drawsA b)).any (fun j => coversA (shiftRow (m.getD b [])) ml j l)) with
      hany | hany
    · rw [hany]
      simp
    · rw [hany, if_neg (by simp)]
      constructor
      · intro h
        exact absurd h hshift1
      · intro h
        exact absurd h (by simp)
  · rw [fast_fast_bbc_mask_row m ml msl p drawsB b hb,
      ffRowApply_getD _ _ ml msl p (drawsB b) l hlq]
    rcases Bool.eq_false_or_eq_true ((List.range (maxSegments (m.map shiftRow))).any
      (fun s => decisionB (shiftRow (m.getD b [])) msl p (drawsB b) s &&
        decide (maskStartB (shiftRow (m.getD b [])) ml s ≤ (l : ℤ)) &&
        decide ((l : ℤ) < (segStart (shiftRow (m.getD b [])) s : ℤ)
          + (segLen (shiftRow (m.getD b [])) s : ℤ)))) with hany | hany
    · rw [hany]
      simp
    · rw [hany, if_neg (by simp)]
      constructor
      · intro h
        exact absurd h hshift1
      · intro h
        exact absurd h (by simp)

/-- Witness for C4 at the worked example, frame 6 (masked) of sample 0. -/
theorem C4_witness :
    (shiftRow [0, 0, 3, 3, 3, 3, 3, 3, 0, 5, 5, 5, 5]).getD 6 0 ≠ 1 ∧
    (((fast_bbc_mask [[0, 0, 3, 3, 3, 3, 3, 3, 0, 5, 5, 5, 5]] 2 5 1
        (fun _ _ => 0)).getD 0 []).getD 6 0 = 1 ↔
      (selectedA (shiftRow [0, 0, 3, 3, 3, 3, 3, 3, 0, 5, 5, 5, 5]) 5 1
        (fun _ => 0)).any
        (fun j => coversA (shiftRow [0, 0, 3, 3, 3, 3, 3, 3, 0, 5, 5, 5, 5]) 2 j 6)
        = true) ∧
    (((fast_fast_bbc_mask [[0, 0, 3, 3, 3, 3, 3, 3, 0, 5, 5, 5, 5]] 2 5 1
        (fun _ _ => 0)).getD 0 []).getD 6 0 = 1 ↔
      (List.range (maxSegments ([[0, 0, 3, 3, 3, 3, 3, 3, 0, 5, 5, 5, 5]].map
        shiftRow))).any (fun s =>
        decisionB (shiftRow [0, 0, 3, 3, 3, 3, 3, 3, 0, 5, 5, 5, 5]) 5 1
          (fun _ => 0) s &&
        decide (maskStartB (shiftRow [0, 0, 3, 3, 3, 3, 3, 3, 0, 5, 5, 5, 5]) 2 s
          ≤ (6 : ℤ)) &&
        decide ((6 : ℤ) < (segStart (shiftRow [0, 0, 3, 3, 3, 3, 3, 3, 0, 5, 5, 5, 5]) s : ℤ)
          + (segLen (shiftRow [0, 0, 3, 3, 3, 3, 3, 3, 0, 5, 5, 5, 5]) s : ℤ)))
        = true) :=
  C4_marker_exclusive [[0, 0, 3, 3, 3, 3, 3, 3, 0, 5, 5, 5, 5]] 2 5 1
    (fun _ _ => 0) (fun _ _ => 0) (by decide) 0 (by decide) 6 (by decide)

/-- Claim C10: for every non-negative input matrix and any draws, both
operations return a matrix of the same shape in which every frame is either
the shifted input value or the marker `1`, and an output frame is `0` exactly
when the input frame is `0`: padding frames are never masked and never
altered. -/
theorem C10_output_invariants (m : List (List ℤ)) (ml msl : ℤ) (p : ℚ)
    (drawsA drawsB : ℕ → ℕ → ℚ) (hq : ∀ row ∈ m, ∀ v ∈ row, 0 ≤ v) :
    (fast_bbc_mask m ml msl p drawsA).length = m.length ∧
    (fast_fast_bbc_mask m ml msl p drawsB).length = m.length ∧
    ∀ b, b < m.length →
      ((fast_bbc_mask m ml msl p drawsA).getD b []).length
          = (m.getD b []).length ∧
      ((fast_fast_bbc_mask m ml msl p drawsB).getD b []).length
          = (m.getD b []).length ∧
      ∀ l, l < (m.getD b []).length →
        ((((fast_bbc_mask m ml msl p drawsA).getD b []).getD l 0
            = shiftVal ((m.getD b []).getD l 0) ∨
          ((fast_bbc_mask m ml msl p drawsA).getD b []).getD l 0 = 1) ∧
         (((fast_bbc_mask m ml msl p drawsA).getD b []).getD l 0 = 0 ↔
            (m.getD b []).getD l 0 = 0)) ∧
        ((((fast_fast_bbc_mask m ml msl p drawsB).getD b []).getD l 0
            = shiftVal ((m.getD b []).getD l 0) ∨
          ((fast_fast_bbc_mask m ml msl p drawsB).getD b []).getD l 0 = 1) ∧
         (((fast_fast_bbc_mask m ml msl p drawsB).getD b []).getD l 0 = 0 ↔
            (m.getD b []).getD l 0 = 0)) := by
  refine ⟨by simp [fast_bbc_mask], by simp [fast_fast_bbc_mask], ?_⟩
  intro b hb
  have hrowmem : m.getD b [] ∈ m := by
    rw [getD_of_lt_gen m b [] hb]
    exact List.getElem_mem hb
  have hq2 : ∀ v ∈ shiftRow (m.getD b []), 0 ≤ v :=
    shiftRow_entries_nonneg _ (hq _ hrowmem)
  refine ⟨by rw [fast_bbc_mask_row m ml msl p drawsA b hb, length_fastRowA],
    by rw [fast_fast_bbc_mask_row m ml msl p drawsB b hb, length_ffRowApply,
      length_shiftRow], ?_⟩
  intro l hl
  have hlq : l < (shiftRow (m.getD b [])).length := by rwa [length_shiftRow]
  have hsv : (shiftRow (m.getD b [])).getD l 0
      = shiftVal ((m.getD b []).getD l 0) := shiftRow_getD _ l hl
  have hin0 : shiftVal ((m.getD b []).getD l 0) = 0 ↔ (m.getD b []).getD l 0 = 0 :=
    shiftVal_eq_zero _
  constructor
  · rw [fast_bbc_mask_row m ml msl p drawsA b hb,
      fastRowA_getD _ ml msl p (drawsA b) l hl]
    rcases Bool.eq_false_or_eq_true ((selectedA (shiftRow (m.getD b [])) msl p
      (drawsA b)).any (fun j => coversA (shiftRow (m.getD b [])) ml j l)) with
      hany | hany
    · rw [hany, if_pos rfl]
      have hnz : (m.getD b []).getD l 0 ≠ 0 := by
        have := covered_frame_ne_zero_A _ hq2 ml msl p (drawsA b) l hany
        rw [hsv] at this
        exact fun hc => this (hin0.mpr hc)
      exact ⟨Or.inr rfl, by
        constructor
        · intro h
          exact absurd h one_ne_zero
        · intro h
          exact absurd h hnz⟩
    · rw [hany, if_neg (by simp), hsv]
      exact ⟨Or.inl rfl, hin0⟩
  · rw [fast_fast_bbc_mask_row m ml msl p drawsB b hb,
      ffRowApply_getD _ _ ml msl p (drawsB b) l hlq]
    rcases Bool.eq_false_or_eq_true ((List.range (maxSegments (m.map shiftRow))).any
      (fun s => decisionB (shiftRow (m.getD b [])) msl p (drawsB b) s &&
        decide (maskStartB (shiftRow (m.getD b [])) ml s ≤ (l : ℤ)) &&
        decide ((l : ℤ) < (segStart (shiftRow (m.getD b [])) s : ℤ)
          + (segLen (shiftRow (m.getD b [])) s : ℤ)))) with hany | hany
    · rw [hany, if_pos rfl]
      have hnz : (m.getD b []).getD l 0 ≠ 0 := by
        have := covered_frame_ne_zero_B _ hq2 ml msl p (drawsB b) _ l hlq hany
        rw [hsv] at this
        exact fun hc => this (hin0.mpr hc)
      exact ⟨Or.inr rfl, by
        constructor
        · intro h
          exact absurd h one_ne_zero
        · intro h
          exact absurd h hnz⟩
    · rw [hany, if_neg (by simp), hsv]
      exact ⟨Or.inl rfl, hin0⟩

/-- Witness for C10 at the worked example. -/
theorem C10_witness :
    (fast_bbc_mask [[0, 0, 3, 3, 0]] 2 2 1 (fun _ _ => 0)).length = 1 ∧
      (fast_fast_bbc_mask [[0, 0, 3, 3, 0]] 2 2 1 (fun _ _ => 0)).length = 1 ∧
      ∀ b, b < ([[0, 0, 3, 3, 0]] : List (List ℤ)).length →
        ((fast_bbc_mask [[0, 0, 3, 3, 0]] 2 2 1 (fun _ _ => 0)).getD b []).length
            = (([[0, 0, 3, 3, 0]] : List (List ℤ)).getD b []).length ∧
        ((fast_fast_bbc_mask [[0, 0, 3, 3, 0]] 2 2 1 (fun _ _ => 0)).getD b []).length
            = (([[0, 0, 3, 3, 0]] : List (List ℤ)).getD b []).length ∧
        ∀ l, l < (([[0, 0, 3, 3, 0]] : List (List ℤ)).getD b []).length →
          ((((fast_bbc_mask [[0, 0, 3, 3, 0]] 2 2 1 (fun _ _ => 0)).getD b []).getD l 0
              = shiftVal ((([[0, 0, 3, 3, 0]] : List (List ℤ)).getD b []).getD l 0) ∨
            ((fast_bbc_mask [[0, 0, 3, 3, 0]] 2 2 1 (fun _ _ => 0)).getD b []).getD l 0
              = 1) ∧
           (((fast_bbc_mask [[0, 0, 3, 3, 0]] 2 2 1 (fun _ _ => 0)).getD b []).getD l 0
              = 0 ↔ (([[0, 0, 3, 3, 0]] : List (List ℤ)).getD b []).getD l 0 = 0)) ∧
          ((((fast_fast_bbc_mask [[0, 0, 3, 3, 0]] 2 2 1 (fun _ _ => 0)).getD b []).getD
              l 0 = shiftVal ((([[0, 0, 3, 3, 0]] : List (List ℤ)).getD b []).getD l 0) ∨
            ((fast_fast_bbc_mask [[0, 0, 3, 3, 0]] 2 2 1 (fun _ _ => 0)).getD b []).getD
              l 0 = 1) ∧
           (((fast_fast_bbc_mask [[0, 0, 3, 3, 0]] 2 2 1 (fun _ _ => 0)).getD b []).getD
              l 0 = 0 ↔ (([[0, 0, 3, 3, 0]] : List (List ℤ)).getD b []).getD l 0 = 0)) :=
  C10_output_invariants [[0, 0, 3, 3, 0]] 2 2 1 (fun _ _ => 0) (fun _ _ => 0)
    (by decide)

/-- Claim C6: on the single row `[0,0,3,3,3,3,3,3,0,5,5,5,5]` with
`mask_length = 2`, `min_segment_length = 5`, `mask_prob = 1`, and any draws in
`[0, 1)`, the segments are `(0,2,0)`, `(2,6,4)`, `(8,1,0)`, `(9,4,6)`; only
segment 1 (`(2,6,4)`) is eligible; and both operations return exactly
`[0,0,4,4,4,4,1,1,0,6,6,6,6]` — frames 6 and 7 carry the marker — regardless
of the draws. -/
theorem C6_concrete_scenario (draws : ℕ → ℕ → ℚ) (hd : ∀ b k, draws b k < 1) :
    segTriples (shiftRow [0, 0, 3, 3, 3, 3, 3, 3, 0, 5, 5, 5, 5])
        = [(0, 2, 0), (2, 6, 4), (8, 1, 0), (9, 4, 6)] ∧
    validIndices (shiftRow [0, 0, 3, 3, 3, 3, 3, 3, 0, 5, 5, 5, 5]) 5 = [1] ∧
    fast_bbc_mask [[0, 0, 3, 3, 3, 3, 3, 3, 0, 5, 5, 5, 5]] 2 5 1 draws
        = [[0, 0, 4, 4, 4, 4, 1, 1, 0, 6, 6, 6, 6]] ∧
    fast_fast_bbc_mask [[0, 0, 3, 3, 3, 3, 3, 3, 0, 5, 5, 5, 5]] 2 5 1 draws
        = [[0, 0, 4, 4, 4, 4, 1, 1, 0, 6, 6, 6, 6]] := by
  have hvi : validIndices (shiftRow [0, 0, 3, 3, 3, 3, 3, 3, 0, 5, 5, 5, 5]) 5
      = [1] := by decide
  refine ⟨by decide, hvi, ?_, ?_⟩
  · have hsel : selectedA (shiftRow [0, 0, 3, 3, 3, 3, 3, 3, 0, 5, 5, 5, 5]) 5 1
        (draws 0) = [1] := by
      unfold selectedA
      rw [hvi]
      simp only [selectIdx, if_pos (hd 0 0)]
    have hrowA : fastRowA [0, 0, 3, 3, 3, 3, 3, 3, 0, 5, 5, 5, 5] 2 5 1 (draws 0)
        = [0, 0, 4, 4, 4, 4, 1, 1, 0, 6, 6, 6, 6] := by
      show List.foldl
        (applySegA (shiftRow [0, 0, 3, 3, 3, 3, 3, 3, 0, 5, 5, 5, 5]) 2)
        (shiftRow [0, 0, 3, 3, 3, 3, 3, 3, 0, 5, 5, 5, 5])
        (selectedA (shiftRow [0, 0, 3, 3, 3, 3, 3, 3, 0, 5, 5, 5, 5]) 5 1 (draws 0))
        = [0, 0, 4, 4, 4, 4, 1, 1, 0, 6, 6, 6, 6]
      rw [hsel]
      decide
    have hmat : fast_bbc_mask [[0, 0, 3, 3, 3, 3, 3, 3, 0, 5, 5, 5, 5]] 2 5 1 draws
        = [fastRowA [0, 0, 3, 3, 3, 3, 3, 3, 0, 5, 5, 5, 5] 2 5 1 (draws 0)] := rfl
    rw [hmat, hrowA]
  · have hdec : ∀ s, decisionB (shiftRow [0, 0, 3, 3, 3, 3, 3, 3, 0, 5, 5, 5, 5])
        5 1 (draws 0) s
        = validSlot (shiftRow [0, 0, 3, 3, 3, 3, 3, 3, 0, 5, 5, 5, 5]) 5 s := by
      intro s
      unfold decisionB
      rw [decide_eq_true (hd 0 s)]
      simp
    have hffrow : ffRowApply (shiftRow [0, 0, 3, 3, 3, 3, 3, 3, 0, 5, 5, 5, 5])
        (maxSegments [shiftRow [0, 0, 3, 3, 3, 3, 3, 3, 0, 5, 5, 5, 5]]) 2 5 1
        (draws 0) = [0, 0, 4, 4, 4, 4, 1, 1, 0, 6, 6, 6, 6] := by
      unfold ffRowApply
      simp only [hdec]
      decide
    have hmat : fast_fast_bbc_mask [[0, 0, 3, 3, 3, 3, 3, 3, 0, 5, 5, 5, 5]] 2 5 1
        draws
        = [ffRowApply (shiftRow [0, 0, 3, 3, 3, 3, 3, 3, 0, 5, 5, 5, 5])
            (maxSegments [shiftRow [0, 0, 3, 3, 3, 3, 3, 3, 0, 5, 5, 5, 5]]) 2 5 1
            (draws 0)] := rfl
    rw [hmat, hffrow]

/-- Witness for C6 with the constant draw 0. -/
theorem C6_witness :
    segTriples (shiftRow [0, 0, 3, 3, 3, 3, 3, 3, 0, 5, 5, 5, 5])
        = [(0, 2, 0), (2, 6, 4), (8, 1, 0), (9, 4, 6)] ∧
    validIndices (shiftRow [0, 0, 3, 3, 3, 3, 3, 3, 0, 5, 5, 5, 5]) 5 = [1] ∧
    fast_bbc_mask [[0, 0, 3, 3, 3, 3, 3, 3, 0, 5, 5, 5, 5]] 2 5 1 (fun _ _ => 0)
        = [[0, 0, 4, 4, 4, 4, 1, 1, 0, 6, 6, 6, 6]] ∧
    fast_fast_bbc_mask [[0, 0, 3, 3, 3, 3, 3, 3, 0, 5, 5, 5, 5]] 2 5 1
        (fun _ _ => 0) = [[0, 0, 4, 4, 4, 4, 1, 1, 0, 6, 6, 6, 6]] :=
  C6_concrete_scenario (fun _ _ => 0) (fun _ _ => by norm_num)

end BBCMask

